import Mathlib

/-!
Verification of the `stats` package (`sample.go`): a shallow embedding of
the `Sample` data type and its operations (`Bounds`, `Sum`, `Weight`,
`Mean`, `StdDev`, `Percentile`, `IQR`, `Sort`, `Copy`), with theorems
checking the natural-language specification against the code.

Float model: Go `float64` values are modelled by the type `Stats.F` with
constructors for NaN, signed infinities and exact rational finite values.
Arithmetic follows the IEEE-754 special-value rules exactly (NaN and
infinity propagation, signed division by zero); finite arithmetic is exact
rational arithmetic (the idealization drops rounding, which none of the
verified properties depend on).  There is no signed zero; Go code under
verification never distinguishes -0.0 from 0.0.
-/

namespace Stats

/-- Idealized `float64`: NaN, infinities (`inf true` is +Inf), or an exact
rational finite value. -/
inductive F where
  | nan : F
  | inf : Bool → F
  | fin : ℚ → F
deriving DecidableEq, Repr

namespace F

/-- IEEE `x != NaN` test. -/
def isNaN : F → Bool
  | nan => true
  | _ => false

/-- Go `math.IsInf(x, 0)`: true for either infinity. -/
def isInf : F → Bool
  | inf _ => true
  | _ => false

/-- True for finite values only. -/
def isFinite : F → Bool
  | fin _ => true
  | _ => false

/-- The rational value of a finite float (0 for NaN/infinities). -/
def toQ : F → ℚ
  | fin q => q
  | _ => 0

/-- IEEE negation. -/
def neg : F → F
  | nan => nan
  | inf b => inf (!b)
  | fin q => fin (-q)

/-- IEEE addition (exact on finite values). -/
def add : F → F → F
  | nan, _ => nan
  | _, nan => nan
  | inf a, inf b => if a = b then inf a else nan
  | inf a, fin _ => inf a
  | fin _, inf b => inf b
  | fin q, fin r => fin (q + r)

/-- IEEE subtraction. -/
def sub (a b : F) : F := add a (neg b)

/-- IEEE multiplication (exact on finite values). -/
def mul : F → F → F
  | nan, _ => nan
  | _, nan => nan
  | inf a, inf b => inf (a = b)
  | inf a, fin q => if q = 0 then nan else if 0 < q then inf a else inf (!a)
  | fin q, inf b => if q = 0 then nan else if 0 < q then inf b else inf (!b)
  | fin q, fin r => fin (q * r)

/-- IEEE division (exact on finite values; division by zero follows the
sign of the numerator, matching Go where the zero divisor is +0). -/
def div : F → F → F
  | nan, _ => nan
  | _, nan => nan
  | inf _, inf _ => nan
  | inf a, fin q => if q < 0 then inf (!a) else inf a
  | fin _, inf _ => fin 0
  | fin q, fin r =>
      if r = 0 then (if q = 0 then nan else if 0 < q then inf true else inf false)
      else fin (q / r)

/-- IEEE `<` (false whenever either side is NaN). -/
def lt : F → F → Bool
  | nan, _ => false
  | _, nan => false
  | inf a, inf b => !a && b
  | inf a, fin _ => !a
  | fin _, inf b => b
  | fin q, fin r => decide (q < r)

/-- IEEE `>`. -/
def gt (a b : F) : Bool := lt b a

/-- IEEE `==` (false whenever either side is NaN). -/
def beq : F → F → Bool
  | inf a, inf b => a = b
  | fin q, fin r => decide (q = r)
  | _, _ => false

/-- IEEE `<=`. -/
def le (a b : F) : Bool := lt a b || beq a b

/-- Exact rational square root when the argument is a perfect square of a
rational.  Only a best-effort value elsewhere: no theorem in this file
evaluates `sqrt` at a finite non-square. -/
def ratSqrt (q : ℚ) : ℚ := (Nat.sqrt q.num.toNat : ℚ) / (Nat.sqrt q.den : ℚ)

/-- IEEE square root on the idealized floats: NaN for NaN and negative
arguments, +Inf for +Inf, exact on rational perfect squares. -/
def sqrt : F → F
  | nan => nan
  | inf b => if b then inf true else nan
  | fin q => if q < 0 then nan else fin (ratSqrt q)

/-- Go conversion `int(x)`: truncation toward zero for finite values;
NaN/infinity conversions are implementation-defined in Go and modelled as
`none` (every use in the code feeds an index whose access then fails). -/
def truncInt : F → Option ℤ
  | fin q => some (if q < 0 then -((-q).floor) else q.floor)
  | _ => none

end F

/-- `Sample` (sample.go): values, optional parallel weights, sortedness
flag.  `Weights = none` is Go's nil weights slice. -/
structure Sample where
  Xs : List F
  Weights : Option (List F)
  Sorted : Bool
deriving DecidableEq, Repr

/-- Free function `Bounds(xs)` (sample.go): running min/max scan starting
from the first element, `<`/`>` comparisons; empty input gives (NaN, NaN). -/
def Bounds (xs : List F) : F × F :=
  match xs with
  | [] => (F.nan, F.nan)
  | x0 :: _ =>
      xs.foldl
        (fun mm x =>
          (if F.lt x mm.1 then x else mm.1, if F.gt x mm.2 then x else mm.2))
        (x0, x0)

/-- Go `w != 0` on a weight (note: true for a NaN weight, as in Go). -/
def wNZ (w : F) : Bool := !F.beq w (F.fin 0)

/-- The first value whose paired weight is non-zero, NaN if none: embeds the
forward break-loop of the sorted weighted branch of `Sample.Bounds`. -/
def firstNZ (ps : List (F × F)) : F :=
  ((ps.find? (fun a => wNZ a.2)).map Prod.fst).getD F.nan

/-- Scan of the unsorted weighted branch of `Sample.Bounds`: update min/max
only from entries with non-zero weight. -/
def bScanW : List (F × F) → F × F → F × F
  | [], mm => mm
  | (x, w) :: t, mm =>
      bScanW t
        (if F.lt x mm.1 && wNZ w then x else mm.1,
         if F.gt x mm.2 && wNZ w then x else mm.2)

/-- Method `Sample.Bounds` (sample.go): dispatch on emptiness, sortedness
and presence of weights, exactly as the Go code. -/
def Sample.Bounds (s : Sample) : F × F :=
  if s.Xs = [] ∨ (s.Sorted = false ∧ s.Weights = none) then Stats.Bounds s.Xs
  else if s.Sorted then
    match s.Weights with
    | none => (s.Xs.head?.getD F.nan, s.Xs.getLast?.getD F.nan)
    | some ws =>
        let mn := firstNZ (s.Xs.zip ws)
        if F.isNaN mn then (F.nan, F.nan)
        else (mn, firstNZ (s.Xs.zip ws).reverse)
  else
    let mm := bScanW (s.Xs.zip (s.Weights.getD [])) (F.inf true, F.inf false)
    if F.isInf mm.1 then (F.nan, F.nan) else mm

/-- Free function `Sum(xs)` (sample.go): left-to-right accumulation. -/
def Sum (xs : List F) : F := xs.foldl F.add (F.fin 0)

/-- Method `Sample.Sum` (sample.go): plain sum without weights, else
left-to-right accumulation of `x * w`. -/
def Sample.Sum (s : Sample) : F :=
  match s.Weights with
  | none => Stats.Sum s.Xs
  | some ws => (s.Xs.zip ws).foldl (fun acc p => F.add acc (F.mul p.1 p.2)) (F.fin 0)

/-- Method `Sample.Weight` (sample.go): count of values without weights,
else the sum of the weights. -/
def Sample.Weight (s : Sample) : F :=
  match s.Weights with
  | none => F.fin (s.Xs.length : ℚ)
  | some ws => Stats.Sum ws

/-- Free function `Mean(xs)` (sample.go): incremental mean
`m += (x - m) / (i + 1)`; NaN on empty input. -/
def Mean (xs : List F) : F :=
  if xs = [] then F.nan
  else
    (xs.foldl
      (fun mi x =>
        (F.add mi.1 (F.div (F.sub x mi.1) (F.fin ((mi.2 : ℚ) + 1))), mi.2 + 1))
      ((F.fin 0 : F), (0 : ℕ))).1

/-- One step of the weighted incremental mean of `Sample.Mean`: state is
(m, wsum); `wsum += w; m += (x - m) * w / wsum`. -/
def meanStepW (mi : F × F) (p : F × F) : F × F :=
  let wsum := F.add mi.2 p.2
  (F.add mi.1 (F.div (F.mul (F.sub p.1 mi.1) p.2) wsum), wsum)

/-- Method `Sample.Mean` (sample.go): unweighted fallback on empty input or
nil weights, else the weighted incremental mean (no guard on `wsum = 0`). -/
def Sample.Mean (s : Sample) : F :=
  if s.Xs = [] ∨ s.Weights = none then Stats.Mean s.Xs
  else ((s.Xs.zip (s.Weights.getD [])).foldl meanStepW (F.fin 0, F.fin 0)).1

/-- Free function `StdDev(xs)` (sample.go), exactly as written: the Welford
state is (A, Q, k) with `k` starting at 0, each step computes
`Anext = A + (x-A)/k` (dividing by the pre-increment `k`), then increments
`k`; the result is `sqrt(Q / (k-1))`. -/
def StdDev (xs : List F) : F :=
  if xs = [] then F.nan
  else
    let st := xs.foldl
      (fun AQk x =>
        let Anext := F.add AQk.1 (F.div (F.sub x AQk.1) (F.fin (AQk.2.2 : ℚ)))
        (Anext, F.add AQk.2.1 (F.mul (F.sub x AQk.1) (F.sub x Anext)), AQk.2.2 + 1))
      ((F.fin 0 : F), (F.fin 0 : F), (0 : ℕ))
    F.sqrt (F.div st.2.1 (F.fin ((st.2.2 : ℚ) - 1)))

/-- Method `Sample.StdDev` (sample.go): unweighted path on empty input or
nil weights; otherwise the code panics ("Weighted StdDev not implemented"),
modelled as `none`. -/
def Sample.StdDev (s : Sample) : Option F :=
  if s.Xs = [] ∨ s.Weights = none then some (Stats.StdDev s.Xs) else none

/-- Go `sort.Float64Slice.Less` (used by `sort.Float64s` and
`sort.Float64sAreSorted`): `a < b || (isNaN(a) && !isNaN(b))`. -/
def goLess (a b : F) : Bool := F.lt a b || (F.isNaN a && !F.isNaN b)

/-- Go `sort.Float64sAreSorted`: no adjacent pair with `Less(b, a)`. -/
def areSorted : List F → Bool
  | [] => true
  | [_] => true
  | a :: b :: t => !goLess b a && areSorted (b :: t)

/-- Insertion into a sorted list: `te x y = true` places `x` before `y`.
With a ties-true test this is a stable insertion. -/
def insBy (te : α → α → Bool) (x : α) : List α → List α
  | [] => [x]
  | y :: ys => if te x y then x :: y :: ys else y :: insBy te x ys

/-- Insertion sort: one deterministic refinement of Go's comparison sort
(`sort.Sort` / `sort.Float64s` fix no algorithm; any comparator-consistent
permutation is allowed, and this file only proves properties that hold for
all of them). -/
def sortBy (te : α → α → Bool) : List α → List α
  | [] => []
  | x :: xs => insBy te x (sortBy te xs)

/-- Comparator test for `sort.Float64s` (NaN-aware `Less`). -/
def teF (a b : F) : Bool := !goLess b a

/-- Comparator test for `sampleSorter` (plain `<` on the value of a
value/weight pair; `Swap` exchanges values and weights together). -/
def teP (a b : F × F) : Bool := !F.lt b.1 a.1

/-- Method `Sample.Sort` (sample.go): skip when already flagged sorted or
already ascending per `sort.Float64sAreSorted`; else sort values alone
(nil weights, `sort.Float64s`) or value/weight pairs jointly
(`sort.Sort(&sampleSorter{...})`); set the flag. -/
def Sample.Sort (s : Sample) : Sample :=
  if s.Sorted || areSorted s.Xs then { s with Sorted := true }
  else
    match s.Weights with
    | none => { s with Xs := sortBy teF s.Xs, Sorted := true }
    | some ws =>
        let ps := sortBy teP (s.Xs.zip ws)
        { Xs := ps.map Prod.fst, Weights := some (ps.map Prod.snd), Sorted := true }

/-- Method `Sample.Copy` (sample.go): deep copy; in the pure model the
content is identical (aliasing is modelled separately by the heap model). -/
def Sample.Copy (s : Sample) : Sample := ⟨s.Xs, s.Weights, s.Sorted⟩

/-- The weighted percentile scan of `Sample.Percentile`:
`target -= w; if target < 0 return x`; `none` if the loop falls through. -/
def pctScan : List (F × F) → F → Option F
  | [], _ => none
  | (x, w) :: t, target =>
      let target' := F.sub target w
      if F.lt target' (F.fin 0) then some x else pctScan t target'

/-- Go slice indexing `xs[i]` with an `int` index: `none` is the
out-of-range panic. -/
def goIdx (xs : List F) (i : ℤ) : Option F :=
  if 0 ≤ i then xs.get? i.toNat else none

/-- The part of `Sample.Percentile` after the clamping and the sorting of a
copy: nearest-rank indexing without weights, else the weighted scan with
fallback to the last value. -/
def percentileFrom (s : Sample) (pctile : F) : Option F :=
  match s.Weights with
  | none =>
      match F.truncInt (F.mul pctile (F.fin ((s.Xs.length : ℚ) - 1))) with
      | some i => goIdx s.Xs i
      | none => none
  | some ws =>
      let target := F.mul (Sample.Weight s) pctile
      match pctScan (s.Xs.zip ws) target with
      | some v => some v
      | none => s.Xs.getLast?

/-- Method `Sample.Percentile` (sample.go): NaN on empty input; `p <= 0`
gives Bounds min, `p >= 1` gives Bounds max; otherwise sort a copy if not
flagged sorted and select.  `none` models the index panic (reachable only
for a NaN pctile on an unweighted sample). -/
def Sample.Percentile (s : Sample) (pctile : F) : Option F :=
  if s.Xs = [] then some F.nan
  else if F.le pctile (F.fin 0) then some (Sample.Bounds s).1
  else if F.le (F.fin 1) pctile then some (Sample.Bounds s).2
  else percentileFrom (if s.Sorted then s else Sample.Sort (Sample.Copy s)) pctile

/-- Method `Sample.IQR` (sample.go): sort a copy if needed, then
`Percentile(0.75) - Percentile(0.25)`. -/
def Sample.IQR (s : Sample) : Option F :=
  let s' := if s.Sorted then s else Sample.Sort (Sample.Copy s)
  match Sample.Percentile s' (F.fin (3/4)), Sample.Percentile s' (F.fin (1/4)) with
  | some a, some b => some (F.sub a b)
  | _, _ => none

/-- Removing every zero-weight entry (value and weight together) from a
weighted sample: the transformation quantified over by the zero-weight
claims. -/
def dropZeroW (s : Sample) : Sample :=
  match s.Weights with
  | none => s
  | some ws =>
      let l := (s.Xs.zip ws).filter (fun a => wNZ a.2)
      ⟨l.map Prod.fst, some (l.map Prod.snd), s.Sorted⟩

/-- A weight that is finite and non-negative (the data-model invariant on
weights). -/
def finNN : F → Bool
  | F.fin q => decide (0 ≤ q)
  | _ => false

/-- True when the weight list is empty or its first weight is non-zero
(no leading zero-weight entry). -/
def headNZ : List F → Bool
  | [] => true
  | w :: _ => wNZ w

/-- Rational total of the weights of a pair list (meaningful when all
weights are finite). -/
def sumWQ (l : List (F × F)) : ℚ := (l.map (fun p => F.toQ p.2)).sum

/-!
Heap model for the frame claim: Go slices are references into a heap of
float lists, so that "sorts a copy, never the receiver" is an actual
statement about which slots the code writes.  A `SampleRef` is the Go
struct (slice headers plus flag); methods with a value receiver get the
struct by value but share the heap.
-/

/-- A heap of allocated slices, indexed by position. -/
structure Heap where
  slices : List (List F)
deriving DecidableEq, Repr

/-- Read a slice from the heap (a dangling id reads as empty). -/
def Heap.read (h : Heap) (i : ℕ) : List F := (h.slices.get? i).getD []

/-- Allocate a fresh slice at the end of the heap. -/
def Heap.push (h : Heap) (l : List F) : Heap := ⟨h.slices ++ [l]⟩

/-- Overwrite slice `i` in place. -/
def Heap.write (h : Heap) (i : ℕ) (l : List F) : Heap := ⟨h.slices.set i l⟩

/-- The `Sample` struct at the reference level: slice ids plus flag. -/
structure SampleRef where
  xs : ℕ
  weights : Option ℕ
  Sorted : Bool
deriving DecidableEq, Repr

/-- Dereference a `SampleRef` into a value-level `Sample`. -/
def toSample (h : Heap) (s : SampleRef) : Sample :=
  ⟨h.read s.xs, s.weights.map h.read, s.Sorted⟩

/-- `Sample.Copy` at the heap level: allocate fresh slices holding the same
contents (weights only when present), same flag. -/
def CopyH (h : Heap) (s : SampleRef) : Heap × SampleRef :=
  let h1 := h.push (h.read s.xs)
  let xid := h.slices.length
  match s.weights with
  | none => (h1, ⟨xid, none, s.Sorted⟩)
  | some wi => (h1.push (h.read wi), ⟨xid, some h1.slices.length, s.Sorted⟩)

/-- `Sample.Sort` at the heap level (pointer receiver): writes the sorted
contents back into the receiver's own slices; the flag is set on the
returned struct. -/
def SortH (h : Heap) (s : SampleRef) : Heap × SampleRef :=
  let xs := h.read s.xs
  if s.Sorted || areSorted xs then (h, { s with Sorted := true })
  else
    match s.weights with
    | none => (h.write s.xs (sortBy teF xs), { s with Sorted := true })
    | some wi =>
        let ps := sortBy teP (xs.zip (h.read wi))
        ((h.write s.xs (ps.map Prod.fst)).write wi (ps.map Prod.snd),
          { s with Sorted := true })

/-- `Sample.Percentile` at the heap level (value receiver): the unsorted
case rebinds the local `s` to `*s.Copy().Sort()`, i.e. copies into fresh
slices and sorts those; the caller's slices are never written. -/
def PercentileH (h : Heap) (s : SampleRef) (pctile : F) : Option F × Heap :=
  let sv := toSample h s
  if sv.Xs = [] then (some F.nan, h)
  else if F.le pctile (F.fin 0) then (some (Sample.Bounds sv).1, h)
  else if F.le (F.fin 1) pctile then (some (Sample.Bounds sv).2, h)
  else
    let hs := if s.Sorted then (h, s) else (let hc := CopyH h s; SortH hc.1 hc.2)
    (percentileFrom (toSample hs.1 hs.2) pctile, hs.1)

/-- `Sample.IQR` at the heap level (value receiver): sorts a copy if needed
and takes the two percentiles of the sorted local sample. -/
def IQRH (h : Heap) (s : SampleRef) : Option F × Heap :=
  let hs := if s.Sorted then (h, s) else (let hc := CopyH h s; SortH hc.1 hc.2)
  let r1 := PercentileH hs.1 hs.2 (F.fin (3/4))
  let r2 := PercentileH r1.2 hs.2 (F.fin (1/4))
  (match r1.1, r2.1 with
   | some a, some b => some (F.sub a b)
   | _, _ => none, r2.2)

/-! Basic facts about the float order and arithmetic. -/

theorem F.le_no_nan {a b : F} (h : F.le a b = true) :
    F.isNaN a = false ∧ F.isNaN b = false := by
  cases a <;> cases b <;> simp_all [F.le, F.lt, F.beq, F.isNaN]

theorem F.lt_asymm {a b : F} (h : F.lt a b = true) : F.lt b a = false := by
  cases a <;> cases b <;> simp_all [F.lt] <;> linarith

theorem F.le_trans {a b c : F} (h1 : F.le a b = true) (h2 : F.le b c = true) :
    F.le a c = true := by
  cases a <;> cases b <;> cases c <;> simp_all [F.le, F.lt, F.beq]
  all_goals
    rcases h1 with h1 | h1 <;> rcases h2 with h2 | h2 <;>
      first
        | (left; linarith)
        | (rcases h1 with ⟨e1, e2⟩ <;> rcases h2 with ⟨f1, f2⟩ <;> simp_all)
        | (subst_vars; simp_all)
        | (subst_vars; tauto)

theorem F.not_lt_trans {a b c : F} (hb : F.isNaN b = false)
    (h1 : F.lt b a = false) (h2 : F.lt c b = false) : F.lt c a = false := by
  cases a <;> cases b <;> cases c <;> simp_all [F.lt, F.isNaN] <;> linarith

theorem F.le_then_not_lt {a b : F} (h : F.le a b = true) : F.lt b a = false := by
  cases a <;> cases b <;> simp_all [F.le, F.lt, F.beq]
  all_goals first
    | (rcases h with ⟨e1, e2⟩ | e <;> simp_all)
    | (exact h.elim le_of_lt le_of_eq)

theorem F.not_lt_iff_le {a b : F} (ha : F.isNaN a = false) (hb : F.isNaN b = false) :
    F.lt b a = false ↔ F.le a b = true := by
  cases a <;> cases b <;> simp_all [F.le, F.lt, F.beq, F.isNaN]
  · rename_i x y; revert x y; decide
  · exact le_iff_lt_or_eq

theorem F.add_fin0 (a : F) : F.add a (F.fin 0) = a := by
  cases a <;> simp [F.add]

theorem F.add_nan (a : F) : F.add F.nan a = F.nan := by cases a <;> rfl

theorem F.add_nan_right (a : F) : F.add a F.nan = F.nan := by cases a <;> rfl

theorem F.sub_nan_left (a : F) : F.sub F.nan a = F.nan := by cases a <;> rfl

theorem F.mul_nan (a : F) : F.mul F.nan a = F.nan := by cases a <;> rfl

theorem F.div_nan (a : F) : F.div F.nan a = F.nan := by cases a <;> rfl

theorem wNZ_false_iff {w : F} : wNZ w = false ↔ w = F.fin 0 := by
  cases w <;> simp [wNZ, F.beq]

theorem finNN_fin {w : F} (h : finNN w = true) :
    w = F.fin w.toQ ∧ 0 ≤ w.toQ := by
  cases w <;> simp_all [finNN, F.toQ]

/-! Claim theorems (with supporting lemmas interleaved). -/

/-- Claim C1 (code bug): evaluating the code's `StdDev` at the constant
sequence [1, 1]: the first Welford update divides by the pre-increment
`k = 0`, so the result is NaN, not the claimed 0. -/
theorem c1_stddev_eval :
    StdDev [F.fin 1, F.fin 1] = F.nan ∧ F.nan ≠ F.fin 0 := by
  constructor
  · norm_num [StdDev, F.add, F.sub, F.neg, F.div, F.mul, F.sqrt]
  · simp

/-- Claim C4 (code bug): on a sample with all weights zero, `Bounds` and
`Mean` do return NaN, but `Percentile(1/2)` returns the last value 2 (the
weighted scan never goes negative and falls through), contradicting the
claim and the code's own doc comment. -/
theorem c4_all_zero_eval :
    Sample.Bounds ⟨[F.fin 1, F.fin 2], some [F.fin 0, F.fin 0], true⟩ = (F.nan, F.nan) ∧
    Sample.Mean ⟨[F.fin 1, F.fin 2], some [F.fin 0, F.fin 0], true⟩ = F.nan ∧
    Sample.Percentile ⟨[F.fin 1, F.fin 2], some [F.fin 0, F.fin 0], true⟩ (F.fin (1/2)) =
      some (F.fin 2) ∧
    (some (F.fin 2) : Option F) ≠ some F.nan := by
  refine ⟨?_, ?_, ?_, by simp⟩
  · norm_num [Sample.Bounds, firstNZ, wNZ, F.beq, F.isNaN, List.find?]
    simp
  · norm_num [Sample.Mean, meanStepW, F.add, F.sub, F.neg, F.div, F.mul]
    simp
  · norm_num [Sample.Percentile, percentileFrom, pctScan, Sample.Weight, Stats.Sum,
      F.le, F.lt, F.beq, F.add, F.sub, F.neg, F.mul]
    simp

/-- Claim C9 (counterexample): a sample with weights present but no values
takes the unweighted path and returns NaN instead of panicking, so "for
every sample with weights present, StdDev panics" is false as stated. -/
theorem c9_counterexample :
    Sample.StdDev ⟨[], some [], false⟩ = some F.nan ∧
    (some F.nan : Option F) ≠ none := by
  exact ⟨rfl, by simp⟩

/-- Claim C9 (amended): for every sample with weights present and at least
one value, `StdDev` panics (modelled by `none`). -/
theorem c9_stddev_weighted_panics (s : Sample)
    (hw : s.Weights ≠ none) (hx : s.Xs ≠ []) : Sample.StdDev s = none := by
  simp [Sample.StdDev, hw, hx]

/-- Witness for C9's amended theorem at a concrete sample. -/
theorem c9_witness :
    ((⟨[F.fin 1], some [F.fin 1], false⟩ : Sample).Weights ≠ none ∧
      (⟨[F.fin 1], some [F.fin 1], false⟩ : Sample).Xs ≠ []) ∧
    Sample.StdDev ⟨[F.fin 1], some [F.fin 1], false⟩ = none :=
  ⟨⟨by simp, by simp⟩,
    c9_stddev_weighted_panics ⟨[F.fin 1], some [F.fin 1], false⟩ (by simp) (by simp)⟩

/-- Claim C10: a sample with weights present but an empty value sequence
returns NaN through the unweighted empty path, and the panic is reached
exactly when the sample is non-empty and weights are present. -/
theorem c10_stddev_empty_weighted :
    (∀ (ws : List F) (b : Bool), Sample.StdDev ⟨[], some ws, b⟩ = some F.nan) ∧
    (∀ s : Sample, Sample.StdDev s = none ↔ s.Xs ≠ [] ∧ s.Weights ≠ none) := by
  constructor
  · intro ws b; rfl
  · intro s
    by_cases h : s.Xs = [] ∨ s.Weights = none
    · simp [Sample.StdDev, h]; tauto
    · push_neg at h
      simp [Sample.StdDev, h.1, h.2]

theorem meanStepW_first_zero (x : F) :
    meanStepW (F.fin 0, F.fin 0) (x, F.fin 0) = (F.nan, F.fin 0) := by
  cases x <;> norm_num [meanStepW, F.add, F.sub, F.neg, F.mul, F.div]

theorem mean_fold_nan (l : List (F × F)) :
    ∀ w0, (l.foldl meanStepW (F.nan, w0)).1 = F.nan := by
  induction l with
  | nil => intro w0; rfl
  | cons p t ih =>
      intro w0
      simp only [List.foldl_cons]
      rw [show meanStepW (F.nan, w0) p = (F.nan, F.add w0 p.2) from by
        simp [meanStepW, F.add_nan]]
      exact ih _

theorem meanW_head_zero (x : F) (xs ws : List F) (b : Bool) :
    Sample.Mean ⟨x :: xs, some (F.fin 0 :: ws), b⟩ = F.nan := by
  simp only [Sample.Mean]
  rw [if_neg (by simp)]
  simp only [Option.getD_some, List.zip_cons_cons, List.foldl_cons, meanStepW_first_zero]
  exact mean_fold_nan _ _

/-- Claim C2 (counterexample): the weighted incremental mean does not guard
the `wsum = 0` division: on values [5, 7] with weights [0, 1] the first
step computes (5 - 0) * 0 / 0 = NaN and the mean stays NaN, although the
total weight is 1 > 0 and the correct weighted mean is 7. -/
theorem c2_counterexample :
    Sample.Mean ⟨[F.fin 5, F.fin 7], some [F.fin 0, F.fin 1], false⟩ = F.nan ∧
    Sample.Weight ⟨[F.fin 5, F.fin 7], some [F.fin 0, F.fin 1], false⟩ = F.fin 1 ∧
    F.nan ≠ F.fin 7 := by
  refine ⟨?_, ?_, by simp⟩
  · norm_num [Sample.Mean, meanStepW, F.add, F.sub, F.neg, F.div, F.mul]
    simp
  · norm_num [Sample.Weight, Stats.Sum, F.add]

/-- Claim C2 (amended): `Sample.Mean` does not guard the division while the
cumulative weight is zero.  It returns NaN on an empty sample; and with
weights present it returns NaN whenever the first weight is zero (the
unguarded 0/0 poisons the whole fold) — in particular whenever all weights
are zero — even when the total weight is positive. -/
theorem c2_mean_nan_unguarded :
    (∀ s : Sample, s.Xs = [] → Sample.Mean s = F.nan) ∧
    (∀ (x : F) (xs ws : List F) (b : Bool),
      Sample.Mean ⟨x :: xs, some (F.fin 0 :: ws), b⟩ = F.nan) ∧
    (∀ (xs ws : List F) (b : Bool), xs ≠ [] → ws.length = xs.length →
      (∀ w ∈ ws, w = F.fin 0) → Sample.Mean ⟨xs, some ws, b⟩ = F.nan) := by
  refine ⟨?_, ?_, ?_⟩
  · intro s h; simp [Sample.Mean, h, Stats.Mean]
  · intro x xs ws b; exact meanW_head_zero x xs ws b
  · intro xs ws b hx hlen hall
    match xs, ws with
    | [], _ => exact absurd rfl hx
    | x :: xs, [] => simp at hlen
    | x :: xs, w :: ws =>
        have hw : w = F.fin 0 := hall w (by simp)
        subst hw
        exact meanW_head_zero x xs ws b

/-- Witness for C2's amended theorem at a concrete all-zero-weight sample. -/
theorem c2_witness :
    (([F.fin 1] : List F) ≠ [] ∧ ([F.fin 0] : List F).length = [F.fin 1].length ∧
      (∀ w ∈ [F.fin 0], w = F.fin 0)) ∧
    Sample.Mean ⟨[F.fin 1], some [F.fin 0], true⟩ = F.nan :=
  ⟨⟨by simp, by simp, by simp⟩,
    c2_mean_nan_unguarded.2.2 [F.fin 1] [F.fin 0] true (by simp) (by simp) (by simp)⟩

/-- Claim C6: `Percentile` on an empty sample is NaN for every pctile; on a
non-empty sample, `pctile <= 0` returns the Bounds minimum and
`pctile >= 1` returns the Bounds maximum (so Percentile(0) is Bounds min
and Percentile(1) is Bounds max). -/
theorem c6_percentile_clamp (s : Sample) (p : F) :
    (s.Xs = [] → Sample.Percentile s p = some F.nan) ∧
    (s.Xs ≠ [] → F.le p (F.fin 0) = true →
      Sample.Percentile s p = some (Sample.Bounds s).1) ∧
    (s.Xs ≠ [] → F.le (F.fin 1) p = true →
      Sample.Percentile s p = some (Sample.Bounds s).2) := by
  refine ⟨?_, ?_, ?_⟩
  · intro h; simp [Sample.Percentile, h]
  · intro h hle; simp [Sample.Percentile, h, hle]
  · intro h hge
    have hnle : F.le p (F.fin 0) = false := by
      cases hEq : F.le p (F.fin 0)
      · rfl
      · exact absurd (F.le_trans hge hEq) (by decide)
    simp [Sample.Percentile, h, hnle, hge]

/-- Witness for C6 at a concrete sample, at pctile 0 and pctile 1. -/
theorem c6_witness :
    ((⟨[F.fin 2, F.fin 1], none, false⟩ : Sample).Xs ≠ [] ∧
      F.le (F.fin 0) (F.fin 0) = true ∧ F.le (F.fin 1) (F.fin 1) = true) ∧
    Sample.Percentile ⟨[F.fin 2, F.fin 1], none, false⟩ (F.fin 0) =
      some (Sample.Bounds ⟨[F.fin 2, F.fin 1], none, false⟩).1 ∧
    Sample.Percentile ⟨[F.fin 2, F.fin 1], none, false⟩ (F.fin 1) =
      some (Sample.Bounds ⟨[F.fin 2, F.fin 1], none, false⟩).2 :=
  ⟨⟨by simp, by decide, by decide⟩,
    (c6_percentile_clamp ⟨[F.fin 2, F.fin 1], none, false⟩ (F.fin 0)).2.1
      (by simp) (by decide),
    (c6_percentile_clamp ⟨[F.fin 2, F.fin 1], none, false⟩ (F.fin 1)).2.2
      (by simp) (by decide)⟩

/-- Witness for C10 at a concrete sample. -/
theorem c10_witness :
    Sample.StdDev ⟨[], some [F.fin 2], true⟩ = some F.nan ∧
    (Sample.StdDev ⟨[F.fin 1], some [F.fin 1], true⟩ = none ↔
      (⟨[F.fin 1], some [F.fin 1], true⟩ : Sample).Xs ≠ [] ∧
      (⟨[F.fin 1], some [F.fin 1], true⟩ : Sample).Weights ≠ none) :=
  ⟨c10_stddev_empty_weighted.1 [F.fin 2] true,
    c10_stddev_empty_weighted.2 ⟨[F.fin 1], some [F.fin 1], true⟩⟩

theorem chain_nan : ∀ (xs : List F), List.Chain' (fun a b => F.le a b = true) xs →
    F.nan ∈ xs → xs = [F.nan]
  | [], _, h => by simp at h
  | [a], _, h => by simp at h; simp [h]
  | a :: b :: t, hchain, h => by
      rw [List.chain'_cons] at hchain
      have hno := F.le_no_nan hchain.1
      rcases List.mem_cons.mp h with h | h
      · rw [← h] at hno; simp [F.isNaN] at hno
      · have ht := chain_nan (b :: t) hchain.2 h
        have : b = F.nan := by
          have := List.mem_cons_self b t
          rw [ht] at this
          simpa using this
        rw [this] at hno; simp [F.isNaN] at hno

/-- Claim C7: on a weighted sample flagged sorted whose values really are
non-decreasing, `Bounds` returns the first value with non-zero weight as
minimum and the last value with non-zero weight as maximum (`firstNZ` of
the reversed pair list), NaN/NaN when every weight is zero. -/
theorem c7_bounds_sorted_weighted (xs ws : List F)
    (hlen : ws.length = xs.length)
    (hchain : List.Chain' (fun a b => F.le a b = true) xs) :
    Sample.Bounds ⟨xs, some ws, true⟩ =
      (firstNZ (xs.zip ws), firstNZ (xs.zip ws).reverse) := by
  by_cases hx : xs = []
  · subst hx
    simp [Sample.Bounds, Stats.Bounds, firstNZ]
  · rw [Sample.Bounds]
    rw [if_neg (by simp [hx])]
    rw [if_pos rfl]
    simp only
    by_cases hnan : F.isNaN (firstNZ (xs.zip ws)) = true
    · rw [if_pos hnan]
      cases hfind : (xs.zip ws).find? (fun a => wNZ a.2) with
      | none =>
          have hrev : (xs.zip ws).reverse.find? (fun a => wNZ a.2) = none := by
            rw [List.find?_eq_none] at hfind ⊢
            intro p hp
            exact hfind p (List.mem_reverse.mp hp)
          simp [firstNZ, hfind, hrev]
      | some p =>
          have hpnan : p.1 = F.nan := by
            have hfz : firstNZ (xs.zip ws) = p.1 := by simp [firstNZ, hfind]
            rw [hfz] at hnan
            cases hp1 : p.1
            · rfl
            · rw [hp1] at hnan; simp [F.isNaN] at hnan
            · rw [hp1] at hnan; simp [F.isNaN] at hnan
          have hmem : p ∈ xs.zip ws := List.mem_of_find?_eq_some hfind
          have hx1 : p.1 ∈ xs := (List.mem_zip hmem).1
          rw [hpnan] at hx1
          have hxs : xs = [F.nan] := chain_nan xs hchain hx1
          subst hxs
          obtain ⟨w, hws⟩ : ∃ w, ws = [w] := by
            cases ws with
            | nil => simp at hlen
            | cons w t =>
                cases t with
                | nil => exact ⟨w, rfl⟩
                | cons v t2 => simp at hlen
          subst hws
          have hp : p = (F.nan, w) := by
            have : p ∈ [F.nan].zip [w] := hmem
            simpa using this
          have hw : wNZ w = true := by
            have := List.find?_some hfind
            rw [hp] at this
            simpa using this
          simp [firstNZ, List.find?, hw]
    · rw [if_neg hnan]


/-- Witness for C7 at a concrete sorted weighted sample. -/
theorem c7_witness :
    (([F.fin 0, F.fin 3] : List F).length = [F.fin 1, F.fin 2].length ∧
      List.Chain' (fun a b => F.le a b = true) [F.fin 1, F.fin 2]) ∧
    Sample.Bounds ⟨[F.fin 1, F.fin 2], some [F.fin 0, F.fin 3], true⟩ =
      (firstNZ ([F.fin 1, F.fin 2].zip [F.fin 0, F.fin 3]),
        firstNZ ([F.fin 1, F.fin 2].zip [F.fin 0, F.fin 3]).reverse) :=
  ⟨⟨by simp, by simp [List.chain'_cons]; decide⟩,
    c7_bounds_sorted_weighted [F.fin 1, F.fin 2] [F.fin 0, F.fin 3]
      (by simp) (by simp [List.chain'_cons]; decide)⟩

theorem insBy_perm (te : α → α → Bool) (x : α) (l : List α) :
    (insBy te x l).Perm (x :: l) := by
  induction l with
  | nil => exact List.Perm.refl _
  | cons y ys ih =>
      rw [insBy]
      split
      · exact List.Perm.refl _
      · exact (List.Perm.cons y ih).trans (List.Perm.swap x y ys)

theorem sortBy_perm (te : α → α → Bool) (l : List α) : (sortBy te l).Perm l := by
  induction l with
  | nil => exact List.Perm.refl _
  | cons x xs ih =>
      rw [sortBy]
      exact (insBy_perm te x (sortBy te xs)).trans (List.Perm.cons x ih)

theorem insBy_pairwise (te : α → α → Bool)
    (htot : ∀ a b, te a b = false → te b a = true) (x : α) :
    ∀ l : List α,
      (∀ p q r, p ∈ x :: l → q ∈ x :: l → r ∈ x :: l →
        te p q = true → te q r = true → te p r = true) →
      l.Pairwise (fun a b => te a b = true) →
      (insBy te x l).Pairwise (fun a b => te a b = true) := by
  intro l
  induction l with
  | nil => intro _ _; simp [insBy]
  | cons y ys ih =>
      intro htr hp
      rw [insBy]
      split
      case isTrue hxy =>
          rw [List.pairwise_cons]
          refine ⟨?_, hp⟩
          intro z hz
          rcases List.mem_cons.mp hz with h | h
          · rw [h]; exact hxy
          · have hyz : te y z = true := (List.pairwise_cons.mp hp).1 z h
            exact htr x y z (by simp) (by simp) (by simp [h]) hxy hyz
      case isFalse hxy =>
          rw [List.pairwise_cons]
          constructor
          · intro z hz
            have hz' : z ∈ x :: ys := (insBy_perm te x ys).mem_iff.mp hz
            rcases List.mem_cons.mp hz' with h | h
            · rw [h]; exact htot x y (by simpa using hxy)
            · exact (List.pairwise_cons.mp hp).1 z h
          · refine ih ?_ (List.pairwise_cons.mp hp).2
            intro p q r hpm hqm hrm
            refine htr p q r ?_ ?_ ?_ <;>
              first
              | (rcases List.mem_cons.mp hpm with h | h
                 · simp [h]
                 · simp [h])
              | (rcases List.mem_cons.mp hqm with h | h
                 · simp [h]
                 · simp [h])
              | (rcases List.mem_cons.mp hrm with h | h
                 · simp [h]
                 · simp [h])

theorem sortBy_pairwise (te : α → α → Bool)
    (htot : ∀ a b, te a b = false → te b a = true) :
    ∀ l : List α,
      (∀ p q r, p ∈ l → q ∈ l → r ∈ l →
        te p q = true → te q r = true → te p r = true) →
      (sortBy te l).Pairwise (fun a b => te a b = true) := by
  intro l
  induction l with
  | nil => intro _; simp [sortBy]
  | cons x xs ih =>
      intro htr
      rw [sortBy]
      refine insBy_pairwise te htot x (sortBy te xs) ?_ ?_
      · intro p q r hpm hqm hrm
        have hsub : ∀ a, a ∈ x :: sortBy te xs → a ∈ x :: xs := by
          intro a ha
          rcases List.mem_cons.mp ha with h | h
          · simp [h]
          · simp [(sortBy_perm te xs).mem_iff.mp h]
        exact htr p q r (hsub p hpm) (hsub q hqm) (hsub r hrm)
      · refine ih ?_
        intro p q r hpm hqm hrm
        exact htr p q r (by simp [hpm]) (by simp [hqm]) (by simp [hrm])

theorem sortBy_eq_self (te : α → α → Bool) :
    ∀ l : List α, l.Chain' (fun a b => te a b = true) → sortBy te l = l := by
  intro l
  induction l with
  | nil => intro _; rfl
  | cons x xs ih =>
      intro h
      rw [sortBy]
      cases xs with
      | nil => rfl
      | cons y ys =>
          rw [List.chain'_cons] at h
          rw [ih h.2, insBy, if_pos h.1]

theorem insBy_filter (te : α → α → Bool) (q : α → Bool)
    (htot : ∀ a b, te a b = false → te b a = true) (x : α) :
    ∀ l : List α,
      (∀ p q' r, p ∈ x :: l → q' ∈ x :: l → r ∈ x :: l →
        te p q' = true → te q' r = true → te p r = true) →
      l.Pairwise (fun a b => te a b = true) →
      (insBy te x l).filter q =
        if q x then insBy te x (l.filter q) else l.filter q := by
  intro l
  induction l with
  | nil =>
      intro _ _
      simp only [insBy, List.filter_nil, List.filter]
      cases hqx : q x <;> simp [insBy]
  | cons y ys ih =>
      intro htr hp
      rw [insBy]
      split
      case isTrue hxy =>
          cases hqx : q x with
          | false =>
              rw [if_neg (by simp [hqx])]
              rw [List.filter_cons_of_neg (by simp [hqx])]
          | true =>
              rw [if_pos rfl]
              rw [List.filter_cons_of_pos hqx]
              cases hf : (y :: ys).filter q with
              | nil => rw [insBy]
              | cons z zs =>
                  have hz : z ∈ y :: ys := by
                    have : z ∈ (y :: ys).filter q := by rw [hf]; simp
                    exact List.mem_of_mem_filter this
                  have hxz : te x z = true := by
                    rcases List.mem_cons.mp hz with h | h
                    · rw [h]; exact hxy
                    · have hyz : te y z = true := (List.pairwise_cons.mp hp).1 z h
                      exact htr x y z (by simp) (by simp) (by simp [h]) hxy hyz
                  rw [insBy, if_pos hxz]
      case isFalse hxy =>
          have ihr := ih
            (fun p q' r hpm hqm hrm => htr p q' r
              (by rcases List.mem_cons.mp hpm with h | h
                  · simp [h]
                  · simp [h])
              (by rcases List.mem_cons.mp hqm with h | h
                  · simp [h]
                  · simp [h])
              (by rcases List.mem_cons.mp hrm with h | h
                  · simp [h]
                  · simp [h]))
            (List.pairwise_cons.mp hp).2
          cases hqy : q y with
          | true =>
              rw [List.filter_cons_of_pos hqy, ihr]
              cases hqx : q x with
              | true =>
                  rw [if_pos rfl, if_pos rfl]
                  rw [List.filter_cons_of_pos hqy, insBy, if_neg (by simpa using hxy)]
              | false =>
                  rw [if_neg (by simp), if_neg (by simp)]
                  rw [List.filter_cons_of_pos hqy]
          | false =>
              rw [List.filter_cons_of_neg (by simp [hqy]), ihr]
              cases hqx : q x with
              | true =>
                  rw [if_pos rfl, if_pos rfl]
                  rw [List.filter_cons_of_neg (by simp [hqy])]
              | false =>
                  rw [if_neg (by simp), if_neg (by simp)]
                  rw [List.filter_cons_of_neg (by simp [hqy])]

theorem sortBy_filter (te : α → α → Bool) (q : α → Bool)
    (htot : ∀ a b, te a b = false → te b a = true) :
    ∀ l : List α,
      (∀ p q' r, p ∈ l → q' ∈ l → r ∈ l →
        te p q' = true → te q' r = true → te p r = true) →
      (sortBy te l).filter q = sortBy te (l.filter q) := by
  intro l
  induction l with
  | nil => intro _; rfl
  | cons x xs ih =>
      intro htr
      rw [sortBy]
      have htr' : ∀ p q' r, p ∈ xs → q' ∈ xs → r ∈ xs →
          te p q' = true → te q' r = true → te p r = true := by
        intro p q' r hpm hqm hrm
        exact htr p q' r (by simp [hpm]) (by simp [hqm]) (by simp [hrm])
      have hpair := sortBy_pairwise te htot xs htr'
      have hscope : ∀ p q' r, p ∈ x :: sortBy te xs → q' ∈ x :: sortBy te xs →
          r ∈ x :: sortBy te xs → te p q' = true → te q' r = true → te p r = true := by
        intro p q' r hpm hqm hrm
        have hsub : ∀ a, a ∈ x :: sortBy te xs → a ∈ x :: xs := by
          intro a ha
          rcases List.mem_cons.mp ha with h | h
          · simp [h]
          · simp [(sortBy_perm te xs).mem_iff.mp h]
        exact htr p q' r (hsub p hpm) (hsub q' hqm) (hsub r hrm)
      rw [insBy_filter te q htot x (sortBy te xs) hscope hpair]
      cases hqx : q x with
      | true =>
          rw [if_pos rfl, List.filter_cons_of_pos hqx, sortBy, ih htr']
      | false =>
          rw [if_neg (by simp), List.filter_cons_of_neg (by simp [hqx]), ih htr']

theorem goLess_asymm {a b : F} (h : goLess a b = true) : goLess b a = false := by
  cases a <;> cases b <;> simp_all [goLess, F.lt, F.isNaN] <;> linarith

theorem not_goLess_trans {a b c : F}
    (h1 : goLess b a = false) (h2 : goLess c b = false) : goLess c a = false := by
  cases a <;> cases b <;> cases c <;> simp_all [goLess, F.lt, F.isNaN] <;> linarith

theorem F.le_then_not_goLess {a b : F} (h : F.le a b = true) : goLess b a = false := by
  have hnn := F.le_no_nan h
  simp [goLess, F.le_then_not_lt h, hnn.2]

theorem teF_total : ∀ a b : F, teF a b = false → teF b a = true := by
  intro a b h
  simp only [teF, Bool.not_eq_false'] at h
  simp [teF, goLess_asymm h]

theorem teF_trans : ∀ a b c : F, teF a b = true → teF b c = true → teF a c = true := by
  intro a b c h1 h2
  simp only [teF, Bool.not_eq_true'] at h1 h2 ⊢
  exact not_goLess_trans h1 h2

theorem teP_total : ∀ a b : F × F, teP a b = false → teP b a = true := by
  intro a b h
  simp only [teP, Bool.not_eq_false'] at h
  simp [teP, F.lt_asymm h]

theorem teP_trans_mid {a b c : F × F} (hb : F.isNaN b.1 = false)
    (h1 : teP a b = true) (h2 : teP b c = true) : teP a c = true := by
  simp only [teP, Bool.not_eq_true'] at h1 h2 ⊢
  exact F.not_lt_trans hb h1 h2

theorem areSorted_iff_chain (xs : List F) :
    areSorted xs = true ↔ List.Chain' (fun a b => goLess b a = false) xs := by
  induction xs with
  | nil => simp [areSorted]
  | cons a t ih =>
      cases t with
      | nil => simp [areSorted]
      | cons b t2 =>
          rw [areSorted, List.chain'_cons, Bool.and_eq_true, Bool.not_eq_true']
          rw [ih]

theorem chain_le_areSorted {xs : List F}
    (h : List.Chain' (fun a b => F.le a b = true) xs) : areSorted xs = true := by
  rw [areSorted_iff_chain]
  refine h.imp ?_
  intro a b hab
  exact F.le_then_not_goLess hab

theorem areSorted_chain_le : ∀ xs : List F, (∀ x ∈ xs, F.isNaN x = false) →
    areSorted xs = true → List.Chain' (fun a b => F.le a b = true) xs
  | [] => by simp
  | [a] => by simp
  | a :: b :: t => by
      intro hnn h
      rw [areSorted, Bool.and_eq_true, Bool.not_eq_true'] at h
      rw [List.chain'_cons]
      constructor
      · have ha : F.isNaN a = false := hnn a (by simp)
        have hb : F.isNaN b = false := hnn b (by simp)
        have : F.lt b a = false := by
          have := h.1
          simpa [goLess, hb] using this
        exact (F.not_lt_iff_le ha hb).mp this
      · exact areSorted_chain_le (b :: t) (fun x hx => hnn x (by simp [hx])) h.2

theorem sort_sorted_flag (s : Sample) : (Sample.Sort s).Sorted = true := by
  rw [Sample.Sort]
  split
  · rfl
  · cases s.Weights <;> simp

theorem sort_flag_true_id (t : Sample) (h : t.Sorted = true) : Sample.Sort t = t := by
  rw [Sample.Sort, h]
  simp
  cases t
  simp_all

theorem sort_idem (s : Sample) : Sample.Sort (Sample.Sort s) = Sample.Sort s :=
  sort_flag_true_id (Sample.Sort s) (sort_sorted_flag s)

theorem pairwise_teP_chain_fst {ps : List (F × F)}
    (hnn : ∀ p ∈ ps, F.isNaN p.1 = false)
    (hp : ps.Pairwise (fun a b => teP a b = true)) :
    List.Chain' (fun a b => F.le a b = true) (ps.map Prod.fst) := by
  refine List.Pairwise.chain' ?_
  rw [List.pairwise_map]
  refine hp.imp_of_mem ?_
  intro a b ha hb hab
  simp only [teP, Bool.not_eq_true'] at hab
  exact (F.not_lt_iff_le (hnn a ha) (hnn b hb)).mp hab

theorem pairwise_teF_chain {xs : List F}
    (hnn : ∀ x ∈ xs, F.isNaN x = false)
    (hp : xs.Pairwise (fun a b => teF a b = true)) :
    List.Chain' (fun a b => F.le a b = true) xs := by
  refine List.Pairwise.chain' ?_
  refine hp.imp_of_mem ?_
  intro a b ha hb hab
  simp only [teF, Bool.not_eq_true'] at hab
  have hlt : F.lt b a = false := by
    have hb' := hnn b hb
    simpa [goLess, hb'] using hab
  exact (F.not_lt_iff_le (hnn a ha) (hnn b hb)).mp hlt

/-- Claim C5 (counterexample): values may be NaN, and on Xs = [NaN, 1]
(consistent flag: it is unset) Go's `sort.Float64sAreSorted` considers the
slice sorted (`1 < NaN` is false), so `Sort` only sets the flag and the
resulting value sequence [NaN, 1] is not non-decreasing (`NaN <= 1` is
false): "sorts the values ascending" fails as stated. -/
theorem c5_counterexample :
    (Sample.Sort ⟨[F.nan, F.fin 1], none, false⟩).Xs = [F.nan, F.fin 1] ∧
    ¬ List.Chain' (fun a b => F.le a b = true) [F.nan, F.fin 1] := by
  constructor
  · rfl
  · simp [List.chain'_cons, F.le, F.lt, F.beq]

/-- Claim C5 (amended): for every sample with no NaN values whose Sorted
flag is consistent, `Sort` produces an ascending value sequence, preserves
the multiset of value/weight pairs (the values alone when weights are nil),
sets the flag, only sets the flag when the sample is already flagged or
already ascending, and is idempotent. -/
theorem c5_sort_correct (s : Sample)
    (hnn : ∀ x ∈ s.Xs, F.isNaN x = false)
    (hflag : s.Sorted = true → List.Chain' (fun a b => F.le a b = true) s.Xs) :
    List.Chain' (fun a b => F.le a b = true) (Sample.Sort s).Xs ∧
    (Sample.Sort s).Sorted = true ∧
    (s.Weights = none → (Sample.Sort s).Weights = none ∧
      (Sample.Sort s).Xs.Perm s.Xs) ∧
    (∀ ws, s.Weights = some ws →
      ∃ ws', (Sample.Sort s).Weights = some ws' ∧
        ((Sample.Sort s).Xs.zip ws').Perm (s.Xs.zip ws)) ∧
    ((s.Sorted = true ∨ List.Chain' (fun a b => F.le a b = true) s.Xs) →
      (Sample.Sort s).Xs = s.Xs ∧ (Sample.Sort s).Weights = s.Weights) ∧
    Sample.Sort (Sample.Sort s) = Sample.Sort s := by
  by_cases hb : (s.Sorted || areSorted s.Xs) = true
  · have hS : Sample.Sort s = { s with Sorted := true } := by
      rw [Sample.Sort, if_pos hb]
    have hchain : List.Chain' (fun a b => F.le a b = true) s.Xs := by
      rcases (by simpa using hb : s.Sorted = true ∨ areSorted s.Xs = true) with h | h
      · exact hflag h
      · exact areSorted_chain_le s.Xs hnn h
    refine ⟨by rw [hS]; exact hchain, by rw [hS], ?_, ?_, ?_, sort_idem s⟩
    · intro hw; rw [hS]; exact ⟨hw, List.Perm.refl _⟩
    · intro ws hw; rw [hS]; exact ⟨ws, hw, List.Perm.refl _⟩
    · intro _; rw [hS]; exact ⟨rfl, rfl⟩
  · cases hw : s.Weights with
    | none =>
        have hS : Sample.Sort s = { s with Xs := sortBy teF s.Xs, Sorted := true } := by
          rw [Sample.Sort, if_neg hb, hw]
        have hperm := sortBy_perm teF s.Xs
        have hpair := sortBy_pairwise teF teF_total s.Xs
          (fun p q r _ _ _ h1 h2 => teF_trans p q r h1 h2)
        have hnn' : ∀ x ∈ sortBy teF s.Xs, F.isNaN x = false :=
          fun x hx => hnn x (hperm.mem_iff.mp hx)
        have hchain := pairwise_teF_chain hnn' hpair
        refine ⟨by rw [hS]; exact hchain, by rw [hS], ?_, ?_, ?_, sort_idem s⟩
        · intro _; rw [hS]; exact ⟨hw, hperm⟩
        · intro ws hws; exact absurd hws (by simp)
        · intro hg
          rcases hg with hg | hg
          · exact absurd (by simp [hg] : (s.Sorted || areSorted s.Xs) = true) hb
          · exact absurd (by simp [chain_le_areSorted hg] :
              (s.Sorted || areSorted s.Xs) = true) hb
    | some ws =>
        have hS : Sample.Sort s =
            { Xs := (sortBy teP (s.Xs.zip ws)).map Prod.fst,
              Weights := some ((sortBy teP (s.Xs.zip ws)).map Prod.snd),
              Sorted := true } := by
          rw [Sample.Sort, if_neg hb, hw]
        have hperm := sortBy_perm teP (s.Xs.zip ws)
        have hpair := sortBy_pairwise teP teP_total (s.Xs.zip ws)
          (fun p q r _ hq _ h1 h2 =>
            teP_trans_mid (hnn q.1 ((List.mem_zip hq).1)) h1 h2)
        have hnnp : ∀ p ∈ sortBy teP (s.Xs.zip ws), F.isNaN p.1 = false := by
          intro p hp
          exact hnn p.1 (List.mem_zip (hperm.mem_iff.mp hp)).1
        have hchain := pairwise_teP_chain_fst hnnp hpair
        refine ⟨by rw [hS]; exact hchain, by rw [hS], ?_, ?_, ?_, sort_idem s⟩
        · intro hwn; exact absurd hwn (by simp)
        · intro ws0 hws0
          injection hws0 with hws0
          subst hws0
          refine ⟨(sortBy teP (s.Xs.zip ws)).map Prod.snd, by rw [hS], ?_⟩
          rw [hS]
          simp only
          have hzip : ((sortBy teP (s.Xs.zip ws)).map Prod.fst).zip
              ((sortBy teP (s.Xs.zip ws)).map Prod.snd) = sortBy teP (s.Xs.zip ws) :=
            (List.zip_of_prod rfl rfl).symm
          rw [hzip]
          exact hperm
        · intro hg
          rcases hg with hg | hg
          · exact absurd (by simp [hg] : (s.Sorted || areSorted s.Xs) = true) hb
          · exact absurd (by simp [chain_le_areSorted hg] :
              (s.Sorted || areSorted s.Xs) = true) hb


/-- Witness for C5's amended theorem at a concrete weighted sample. -/
theorem c5_witness :
    ((∀ x ∈ ([F.fin 2, F.fin 1] : List F), F.isNaN x = false) ∧
      ((⟨[F.fin 2, F.fin 1], some [F.fin 5, F.fin 6], false⟩ : Sample).Sorted = true →
        List.Chain' (fun a b => F.le a b = true) [F.fin 2, F.fin 1])) ∧
    List.Chain' (fun a b => F.le a b = true)
      (Sample.Sort ⟨[F.fin 2, F.fin 1], some [F.fin 5, F.fin 6], false⟩).Xs ∧
    (Sample.Sort ⟨[F.fin 2, F.fin 1], some [F.fin 5, F.fin 6], false⟩).Sorted = true :=
  ⟨⟨by decide, by simp⟩,
    (c5_sort_correct ⟨[F.fin 2, F.fin 1], some [F.fin 5, F.fin 6], false⟩
      (by decide) (by simp)).1,
    (c5_sort_correct ⟨[F.fin 2, F.fin 1], some [F.fin 5, F.fin 6], false⟩
      (by decide) (by simp)).2.1⟩

theorem read_push_lt {h : Heap} {l : List F} {i : ℕ} (hi : i < h.slices.length) :
    (h.push l).read i = h.read i := by
  simp only [Heap.push, Heap.read, List.get?_eq_getElem?, List.getElem?_append,
    if_pos hi]

theorem read_write_ne {h : Heap} {j : ℕ} {l : List F} {i : ℕ} (hne : j ≠ i) :
    (h.write j l).read i = h.read i := by
  simp only [Heap.write, Heap.read, List.get?_eq_getElem?, List.getElem?_set_ne hne]

theorem copyH_heap_pres (h : Heap) (s : SampleRef) {i : ℕ}
    (hi : i < h.slices.length) : ((CopyH h s).1).read i = h.read i := by
  rw [CopyH]
  cases s.weights with
  | none => exact read_push_lt hi
  | some wi =>
      simp only
      rw [read_push_lt (by simp [Heap.push]; omega), read_push_lt hi]

theorem copyH_xs (h : Heap) (s : SampleRef) :
    (CopyH h s).2.xs = h.slices.length := by
  rw [CopyH]; cases s.weights <;> simp

theorem copyH_weights (h : Heap) (s : SampleRef) :
    ∀ wi ∈ (CopyH h s).2.weights, wi = h.slices.length + 1 := by
  rw [CopyH]; cases s.weights <;> simp [Heap.push]

theorem copyH_sorted (h : Heap) (s : SampleRef) :
    (CopyH h s).2.Sorted = s.Sorted := by
  rw [CopyH]; cases s.weights <;> simp

theorem sortH_heap_pres (h : Heap) (s : SampleRef) {i : ℕ}
    (hx : i ≠ s.xs) (hw : ∀ wi ∈ s.weights, i ≠ wi) :
    ((SortH h s).1).read i = h.read i := by
  rw [SortH]
  split
  · rfl
  · cases hsw : s.weights with
    | none =>
        simp only
        exact read_write_ne (fun he => hx he.symm)
    | some wi =>
        simp only
        have hiw : i ≠ wi := hw wi (by simp [hsw])
        rw [read_write_ne (fun he => hiw he.symm)]
        rw [read_write_ne (fun he => hx he.symm)]

theorem sortH_flag (h : Heap) (s : SampleRef) : (SortH h s).2.Sorted = true := by
  rw [SortH]
  split
  · rfl
  · cases s.weights <;> simp

theorem stabilize_heap_pres (h : Heap) (s : SampleRef) {i : ℕ}
    (hi : i < h.slices.length) :
    ((if s.Sorted then (h, s)
      else (let hc := CopyH h s; SortH hc.1 hc.2)).1).read i = h.read i := by
  by_cases hS : s.Sorted = true
  · rw [if_pos hS]
  · rw [if_neg hS]
    simp only
    rw [sortH_heap_pres (CopyH h s).1 (CopyH h s).2
      (by rw [copyH_xs]; omega)
      (fun wi hwi => by rw [copyH_weights h s wi hwi]; omega)]
    exact copyH_heap_pres h s hi

theorem stabilize_flag (h : Heap) (s : SampleRef) :
    ((if s.Sorted then (h, s)
      else (let hc := CopyH h s; SortH hc.1 hc.2)).2).Sorted = true := by
  by_cases hS : s.Sorted = true
  · rw [if_pos hS]; exact hS
  · rw [if_neg hS]; exact sortH_flag _ _

theorem percentileH_heap_pres (h : Heap) (s : SampleRef) (p : F) {i : ℕ}
    (hi : i < h.slices.length) :
    ((PercentileH h s p).2).read i = h.read i := by
  rw [PercentileH]
  split
  · rfl
  · split
    · rfl
    · split
      · rfl
      · exact stabilize_heap_pres h s hi

theorem percentileH_sorted_heap (h : Heap) (s : SampleRef) (p : F)
    (hS : s.Sorted = true) : (PercentileH h s p).2 = h := by
  rw [PercentileH]
  split
  · rfl
  · split
    · rfl
    · split
      · rfl
      · simp only [if_pos hS]

theorem iqrH_heap_pres (h : Heap) (s : SampleRef) {i : ℕ}
    (hi : i < h.slices.length) : ((IQRH h s).2).read i = h.read i := by
  rw [IQRH]
  simp only
  rw [percentileH_sorted_heap _ _ _ (stabilize_flag h s)]
  rw [percentileH_sorted_heap _ _ _ (stabilize_flag h s)]
  exact stabilize_heap_pres h s hi

/-- Claim C8: `Percentile` (any pctile) and `IQR` never mutate the receiver
sample: in the heap model every slice the caller's sample refers to is
unchanged after the call — the unsorted case copies into fresh slices and
sorts those.  (The Sorted flag and slice headers cannot change at all: the
Go methods take the receiver by value.) -/
theorem c8_no_mutation (h : Heap) (s : SampleRef) (p : F)
    (hx : s.xs < h.slices.length)
    (hw : ∀ wi ∈ s.weights, wi < h.slices.length) :
    ((PercentileH h s p).2.read s.xs = h.read s.xs ∧
      ∀ wi ∈ s.weights, (PercentileH h s p).2.read wi = h.read wi) ∧
    ((IQRH h s).2.read s.xs = h.read s.xs ∧
      ∀ wi ∈ s.weights, (IQRH h s).2.read wi = h.read wi) := by
  refine ⟨⟨percentileH_heap_pres h s p hx, ?_⟩,
    ⟨iqrH_heap_pres h s hx, ?_⟩⟩
  · intro wi hwi; exact percentileH_heap_pres h s p (hw wi hwi)
  · intro wi hwi; exact iqrH_heap_pres h s (hw wi hwi)


/-- Witness for C8 on a concrete unsorted heap-allocated sample. -/
theorem c8_witness :
    ((⟨0, none, false⟩ : SampleRef).xs < (⟨[[F.fin 3, F.fin 1]]⟩ : Heap).slices.length ∧
      (∀ wi ∈ (⟨0, none, false⟩ : SampleRef).weights,
        wi < (⟨[[F.fin 3, F.fin 1]]⟩ : Heap).slices.length)) ∧
    (PercentileH ⟨[[F.fin 3, F.fin 1]]⟩ ⟨0, none, false⟩ (F.fin (1/2))).2.read 0 =
      Heap.read ⟨[[F.fin 3, F.fin 1]]⟩ 0 ∧
    (IQRH ⟨[[F.fin 3, F.fin 1]]⟩ ⟨0, none, false⟩).2.read 0 =
      Heap.read ⟨[[F.fin 3, F.fin 1]]⟩ 0 :=
  ⟨⟨by simp, by simp⟩,
    (c8_no_mutation ⟨[[F.fin 3, F.fin 1]]⟩ ⟨0, none, false⟩ (F.fin (1/2))
      (by simp) (by simp)).1.1,
    (c8_no_mutation ⟨[[F.fin 3, F.fin 1]]⟩ ⟨0, none, false⟩ (F.fin (1/2))
      (by simp) (by simp)).2.1⟩

theorem find?_filter_self (pred : α → Bool) :
    ∀ l : List α, (l.filter pred).find? pred = l.find? pred := by
  intro l
  induction l with
  | nil => rfl
  | cons a t ih =>
      cases ha : pred a with
      | true =>
          rw [List.filter_cons_of_pos ha, List.find?_cons_of_pos _ ha,
            List.find?_cons_of_pos _ ha]
      | false =>
          rw [List.filter_cons_of_neg (by simp [ha]), ih,
            List.find?_cons_of_neg _ (by simp [ha])]

theorem bScanW_filter : ∀ (l : List (F × F)) (mm : F × F),
    bScanW (l.filter (fun a => wNZ a.2)) mm = bScanW l mm := by
  intro l
  induction l with
  | nil => intro mm; rfl
  | cons a t ih =>
      intro mm
      obtain ⟨x, w⟩ := a
      cases hw : wNZ w with
      | true =>
          rw [List.filter_cons_of_pos (by simpa using hw), bScanW, bScanW, ih]
      | false =>
          rw [List.filter_cons_of_neg (by simp [hw]), bScanW, ih]
          simp [hw]

theorem zipFl (xs ws : List F) :
    ((((xs.zip ws).filter (fun a => wNZ a.2)).map Prod.fst).zip
      (((xs.zip ws).filter (fun a => wNZ a.2)).map Prod.snd)) =
      (xs.zip ws).filter (fun a => wNZ a.2) :=
  (List.zip_of_prod rfl rfl).symm

theorem dropZeroW_eq (xs ws : List F) (b : Bool) :
    dropZeroW ⟨xs, some ws, b⟩ =
      ⟨((xs.zip ws).filter (fun a => wNZ a.2)).map Prod.fst,
        some (((xs.zip ws).filter (fun a => wNZ a.2)).map Prod.snd), b⟩ := rfl

theorem c3_boundsPres (xs ws : List F) (b : Bool) (hlen : ws.length = xs.length) :
    Sample.Bounds (dropZeroW ⟨xs, some ws, b⟩) = Sample.Bounds ⟨xs, some ws, b⟩ := by
  rw [dropZeroW_eq]
  by_cases hxe : xs = []
  · subst hxe
    simp [Sample.Bounds, Stats.Bounds]
  · by_cases hfe : (xs.zip ws).filter (fun a => wNZ a.2) = []
    · have hfind : (xs.zip ws).find? (fun a => wNZ a.2) = none := by
        rw [List.find?_eq_none]
        intro p hp
        exact (List.filter_eq_nil_iff.mp hfe) p hp
      cases b with
      | true =>
          simp [Sample.Bounds, hxe, hfe, Stats.Bounds, firstNZ, hfind, F.isNaN]
      | false =>
          have hsc : ∀ mm, bScanW (xs.zip ws) mm = mm := by
            intro mm
            rw [← bScanW_filter (xs.zip ws), hfe]
            rfl
          simp [Sample.Bounds, hxe, hfe, Stats.Bounds, hsc, F.isInf]
    · have h1 : firstNZ ((xs.zip ws).filter (fun a => wNZ a.2)) = firstNZ (xs.zip ws) := by
        simp only [firstNZ]
        rw [find?_filter_self]
      have h2 : firstNZ ((xs.zip ws).filter (fun a => wNZ a.2)).reverse =
          firstNZ (xs.zip ws).reverse := by
        simp only [firstNZ]
        rw [← List.filter_reverse, find?_filter_self]
      cases b with
      | true =>
          simp only [Sample.Bounds, zipFl]
          simp [hxe, hfe, h1, h2]
      | false =>
          simp only [Sample.Bounds]
          simp [hxe, hfe]
          rw [zipFl xs ws, bScanW_filter]

theorem sumW_filter : ∀ (l : List (F × F)), (∀ p ∈ l, F.isFinite p.1 = true) →
    ∀ acc : F,
      (l.filter (fun a => wNZ a.2)).foldl (fun acc p => F.add acc (F.mul p.1 p.2)) acc =
        l.foldl (fun acc p => F.add acc (F.mul p.1 p.2)) acc := by
  intro l
  induction l with
  | nil => intro _ _; rfl
  | cons a t ih =>
      intro hfin acc
      obtain ⟨x, w⟩ := a
      cases hw : wNZ w with
      | true =>
          rw [List.filter_cons_of_pos (by simpa using hw), List.foldl_cons,
            List.foldl_cons, ih (fun p hp => hfin p (by simp [hp]))]
      | false =>
          have hw0 : w = F.fin 0 := wNZ_false_iff.mp hw
          have hx : F.isFinite x = true := hfin (x, w) (by simp)
          obtain ⟨xq, hxq⟩ : ∃ xq, x = F.fin xq := by
            cases x <;> simp_all [F.isFinite]
          rw [List.filter_cons_of_neg (by simp [hw]), List.foldl_cons,
            ih (fun p hp => hfin p (by simp [hp]))]
          subst hw0 hxq
          simp [F.mul, F.add_fin0]

theorem c3_sumPres (xs ws : List F) (b : Bool)
    (hfx : ∀ x ∈ xs, F.isFinite x = true) :
    Sample.Sum (dropZeroW ⟨xs, some ws, b⟩) = Sample.Sum ⟨xs, some ws, b⟩ := by
  rw [dropZeroW_eq]
  rw [Sample.Sum, Sample.Sum]
  simp only
  rw [zipFl]
  exact sumW_filter (xs.zip ws)
    (fun p hp => hfx p.1 (List.mem_zip hp).1) (F.fin 0)

theorem finNN_cases {w : F} (h : finNN w = true) :
    ∃ wq : ℚ, w = F.fin wq ∧ 0 ≤ wq := by
  cases w <;> simp_all [finNN]

theorem isFinite_cases {x : F} (h : F.isFinite x = true) :
    ∃ xq : ℚ, x = F.fin xq := by
  cases x <;> simp_all [F.isFinite]

theorem meanStepW_fin (m w x w' : ℚ) (hne : w + w' ≠ 0) :
    meanStepW (F.fin m, F.fin w) (F.fin x, F.fin w') =
      (F.fin (m + (x + -m) * w' / (w + w')), F.fin (w + w')) := by
  simp [meanStepW, F.add, F.sub, F.neg, F.mul, F.div, hne]

theorem mean_fold_filter : ∀ (l : List (F × F)) (mq wq : ℚ), 0 < wq →
    (∀ p ∈ l, F.isFinite p.1 = true) → (∀ p ∈ l, finNN p.2 = true) →
    (l.filter (fun a => wNZ a.2)).foldl meanStepW (F.fin mq, F.fin wq) =
      l.foldl meanStepW (F.fin mq, F.fin wq) := by
  intro l
  induction l with
  | nil => intro _ _ _ _ _; rfl
  | cons a t ih =>
      intro mq wq hw hfx hfw
      obtain ⟨x, w⟩ := a
      obtain ⟨xq, hxq⟩ := isFinite_cases (hfx (x, w) (by simp))
      obtain ⟨wq', hwq', hwq'0⟩ := finNN_cases (hfw (x, w) (by simp))
      subst hxq hwq'
      by_cases hz : wq' = 0
      · subst hz
        have hnz : wNZ (F.fin 0) = false := by simp [wNZ, F.beq]
        rw [List.filter_cons_of_neg (by simp [hnz]), List.foldl_cons]
        rw [meanStepW_fin mq wq xq 0 (by simpa using hw.ne.symm)]
        rw [show (mq + (xq + -mq) * 0 / (wq + 0) : ℚ) = mq by ring_nf]
        rw [show (wq + 0 : ℚ) = wq by ring]
        exact ih mq wq hw (fun p hp => hfx p (by simp [hp]))
          (fun p hp => hfw p (by simp [hp]))
      · have hpos : 0 < wq + wq' := by
          rcases lt_or_eq_of_le hwq'0 with h | h
          · linarith
          · linarith
        have hnz : wNZ (F.fin wq') = true := by simp [wNZ, F.beq, hz]
        rw [List.filter_cons_of_pos (by simpa using hnz), List.foldl_cons,
          List.foldl_cons]
        rw [meanStepW_fin mq wq xq wq' hpos.ne.symm]
        exact ih _ _ hpos (fun p hp => hfx p (by simp [hp]))
          (fun p hp => hfw p (by simp [hp]))

theorem c3_meanPres (xs ws : List F) (b : Bool)
    (hlen : ws.length = xs.length)
    (hfx : ∀ x ∈ xs, F.isFinite x = true)
    (hfw : ∀ w ∈ ws, finNN w = true)
    (hw0 : headNZ ws = true) :
    Sample.Mean (dropZeroW ⟨xs, some ws, b⟩) = Sample.Mean ⟨xs, some ws, b⟩ := by
  rw [dropZeroW_eq]
  by_cases hxe : xs = []
  · subst hxe
    simp [Sample.Mean]
  · obtain ⟨x0, xt, hxs⟩ : ∃ x0 xt, xs = x0 :: xt := by
      cases xs with
      | nil => exact absurd rfl hxe
      | cons a t => exact ⟨a, t, rfl⟩
    obtain ⟨w0, wt, hws⟩ : ∃ w0 wt, ws = w0 :: wt := by
      cases ws with
      | nil => rw [hxs] at hlen; simp at hlen
      | cons a t => exact ⟨a, t, rfl⟩
    subst hxs hws
    obtain ⟨x0q, hx0q⟩ := isFinite_cases (hfx x0 (by simp))
    obtain ⟨w0q, hw0q, hw0q0⟩ := finNN_cases (hfw w0 (by simp))
    have hw0nz : wNZ w0 = true := by simpa [headNZ] using hw0
    have hw0qnz : w0q ≠ 0 := by
      intro h
      rw [hw0q, h] at hw0nz
      simp [wNZ, F.beq] at hw0nz
    have hw0pos : 0 < w0q := lt_of_le_of_ne hw0q0 (Ne.symm hw0qnz)
    subst hx0q hw0q
    have hflcons : ((F.fin x0q :: xt).zip (F.fin w0q :: wt)).filter (fun a => wNZ a.2) =
        (F.fin x0q, F.fin w0q) :: (xt.zip wt).filter (fun a => wNZ a.2) := by
      rw [List.zip_cons_cons, List.filter_cons_of_pos (by simpa using hw0nz)]
    rw [hflcons]
    rw [Sample.Mean, Sample.Mean]
    rw [if_neg (by simp), if_neg (by simp)]
    simp only [Option.getD_some, List.zip_cons_cons]
    rw [(List.zip_of_prod (rfl : (((F.fin x0q, F.fin w0q) ::
        (xt.zip wt).filter (fun a => wNZ a.2)).map Prod.fst) = _) rfl).symm]
    rw [List.foldl_cons, List.foldl_cons]
    rw [meanStepW_fin 0 0 x0q w0q (by simpa using hw0qnz)]
    have hpos : (0 : ℚ) < 0 + w0q := by linarith
    rw [mean_fold_filter (xt.zip wt) _ _ hpos
      (fun p hp => hfx p.1 (by simp [(List.mem_zip hp).1]))
      (fun p hp => hfw p.2 (by simp [(List.mem_zip hp).2]))]

theorem p_strict {p : F} (hnan : F.isNaN p = false)
    (h0 : F.le p (F.fin 0) = false) (h1 : F.le (F.fin 1) p = false) :
    ∃ pq : ℚ, p = F.fin pq ∧ 0 < pq ∧ pq < 1 := by
  cases p with
  | nan => simp [F.isNaN] at hnan
  | inf b =>
      cases b
      · simp [F.le, F.lt, F.beq] at h0
      · simp [F.le, F.lt, F.beq] at h1
  | fin pq =>
      simp only [F.le, F.lt, F.beq, Bool.or_eq_false_iff, decide_eq_false_iff_not] at h0 h1
      refine ⟨pq, rfl, ?_, ?_⟩
      · exact lt_of_le_of_ne (not_lt.mp h0.1) (fun he => h0.2 (by exact_mod_cast he.symm))
      · exact lt_of_le_of_ne (not_lt.mp h1.1) (fun he => h1.2 (by exact_mod_cast he.symm))

theorem isFinite_not_nan {x : F} (h : F.isFinite x = true) : F.isNaN x = false := by
  cases x <;> simp_all [F.isFinite, F.isNaN]

theorem sum_fin_fold : ∀ (ws : List F), (∀ w ∈ ws, finNN w = true) →
    ∀ aq : ℚ, ws.foldl F.add (F.fin aq) = F.fin (aq + (ws.map F.toQ).sum) := by
  intro ws
  induction ws with
  | nil => intro _ aq; simp
  | cons w t ih =>
      intro h aq
      obtain ⟨wq, hwq, _⟩ := finNN_cases (h w (by simp))
      subst hwq
      rw [List.foldl_cons]
      rw [show F.add (F.fin aq) (F.fin wq) = F.fin (aq + wq) from rfl]
      rw [ih (fun w hw => h w (by simp [hw])) (aq + wq)]
      simp [F.toQ]
      ring

theorem Sum_fin (ws : List F) (h : ∀ w ∈ ws, finNN w = true) :
    Stats.Sum ws = F.fin ((ws.map F.toQ).sum) := by
  rw [Stats.Sum, sum_fin_fold ws h 0, zero_add]

theorem Sum_snd (L : List (F × F)) (h : ∀ q ∈ L, finNN q.2 = true) :
    Stats.Sum (L.map Prod.snd) = F.fin (sumWQ L) := by
  rw [Sum_fin _ (fun w hw => by
    obtain ⟨q, hq, hq2⟩ := List.mem_map.mp hw
    exact hq2 ▸ h q hq)]
  rw [sumWQ, List.map_map]
  rfl

theorem sumWQ_zip (xs ws : List F) (hlen : ws.length = xs.length) :
    sumWQ (xs.zip ws) = (ws.map F.toQ).sum := by
  rw [sumWQ]
  rw [show (List.map (fun p => F.toQ p.2) (xs.zip ws)) =
    List.map F.toQ (List.map Prod.snd (xs.zip ws)) from by rw [List.map_map]; rfl]
  rw [List.map_snd_zip xs ws (le_of_eq hlen)]

theorem sumWQ_filter : ∀ L : List (F × F), (∀ q ∈ L, finNN q.2 = true) →
    sumWQ (L.filter (fun a => wNZ a.2)) = sumWQ L := by
  intro L
  induction L with
  | nil => intro _; rfl
  | cons a t ih =>
      intro h
      obtain ⟨x, w⟩ := a
      obtain ⟨wq, hwq, _⟩ := finNN_cases (h (x, w) (by simp))
      subst hwq
      by_cases hz : wq = 0
      · subst hz
        rw [List.filter_cons_of_neg (by simp [wNZ, F.beq])]
        rw [ih (fun q hq => h q (by simp [hq]))]
        simp [sumWQ, F.toQ]
      · rw [List.filter_cons_of_pos (by simp [wNZ, F.beq, hz])]
        have ht := ih (fun q hq => h q (by simp [hq]))
        simp only [sumWQ, List.map_cons, List.sum_cons] at ht ⊢
        rw [ht]

theorem sumWQ_nonneg (L : List (F × F)) (h : ∀ q ∈ L, finNN q.2 = true) :
    0 ≤ sumWQ L := by
  refine List.sum_nonneg ?_
  intro x hx
  obtain ⟨q, hq, hq2⟩ := List.mem_map.mp hx
  obtain ⟨wq, hwq, hwq0⟩ := finNN_cases (h q hq)
  rw [← hq2, hwq]
  simpa [F.toQ] using hwq0

theorem sumWQ_perm {L1 L2 : List (F × F)} (h : L1.Perm L2) : sumWQ L1 = sumWQ L2 :=
  (h.map _).sum_eq

theorem pctScan_filter : ∀ (l : List (F × F)) (tq : ℚ),
    (∀ q ∈ l, finNN q.2 = true) → 0 ≤ tq → tq < sumWQ l →
    pctScan l (F.fin tq) = pctScan (l.filter (fun a => wNZ a.2)) (F.fin tq) ∧
    (pctScan l (F.fin tq)).isSome = true := by
  intro l
  induction l with
  | nil =>
      intro tq _ h0 hlt
      exfalso
      simp [sumWQ] at hlt
      linarith
  | cons a t ih =>
      intro tq hfw h0 hlt
      obtain ⟨x, w⟩ := a
      obtain ⟨wq, hwq, hwq0⟩ := finNN_cases (hfw (x, w) (by simp))
      subst hwq
      have hsub : F.sub (F.fin tq) (F.fin wq) = F.fin (tq + -wq) := rfl
      have hsum : sumWQ ((x, F.fin wq) :: t) = wq + sumWQ t := by
        simp [sumWQ, F.toQ]
      by_cases hneg : tq + -wq < 0
      · have hltb : F.lt (F.fin (tq + -wq)) (F.fin 0) = true := by
          simp [F.lt]; linarith
        have hwpos : 0 < wq := by linarith
        have hnz : wNZ (F.fin wq) = true := by
          simp [wNZ, F.beq]; linarith
        rw [List.filter_cons_of_pos (by simpa using hnz)]
        constructor
        · simp only [pctScan, hsub, hltb, if_pos]
        · simp only [pctScan, hsub, hltb, if_pos, Option.isSome_some]
      · have hltb : F.lt (F.fin (tq + -wq)) (F.fin 0) = false := by
          simp [F.lt]; linarith
        have hrec := ih (tq + -wq)
          (fun q hq => hfw q (by simp [hq]))
          (by linarith)
          (by rw [hsum] at hlt; linarith)
        by_cases hz : wq = 0
        · subst hz
          rw [List.filter_cons_of_neg (by simp [wNZ, F.beq])]
          simp only [pctScan, hsub, hltb, if_false, Bool.false_eq_true]
          simp only [neg_zero, add_zero] at hrec ⊢
          exact hrec
        · have hnz : wNZ (F.fin wq) = true := by simp [wNZ, F.beq, hz]
          rw [List.filter_cons_of_pos (by simpa using hnz)]
          simp only [pctScan, hsub, hltb, if_false, Bool.false_eq_true]
          exact hrec

theorem sumWQ_cons (a : F × F) (t : List (F × F)) :
    sumWQ (a :: t) = F.toQ a.2 + sumWQ t := by
  simp [sumWQ]

theorem pctFromW_eq (X1 W1 X2 W2 : List F) (b1 b2 : Bool) (p T v : F)
    (hT1 : F.mul (Stats.Sum W1) p = T) (hT2 : F.mul (Stats.Sum W2) p = T)
    (h1 : pctScan (X1.zip W1) T = some v) (h2 : pctScan (X2.zip W2) T = some v) :
    percentileFrom ⟨X1, some W1, b1⟩ p = percentileFrom ⟨X2, some W2, b2⟩ p := by
  simp only [percentileFrom, Sample.Weight]
  rw [show F.mul (Stats.Sum W1) p = T from hT1,
    show F.mul (Stats.Sum W2) p = T from hT2, h1, h2]

theorem copy_id (t : Sample) : Sample.Copy t = t := rfl

theorem percentile_strict (X : List F) (W : Option (List F)) (bb : Bool) (pq : ℚ)
    (hX : X ≠ []) (h0 : F.le (F.fin pq) (F.fin 0) = false)
    (h1 : F.le (F.fin 1) (F.fin pq) = false) :
    Sample.Percentile ⟨X, W, bb⟩ (F.fin pq) =
      percentileFrom
        (if bb then (⟨X, W, bb⟩ : Sample)
         else Sample.Sort (Sample.Copy ⟨X, W, bb⟩)) (F.fin pq) := by
  rw [Sample.Percentile]
  split
  case isTrue h => exact absurd h hX
  case isFalse =>
    split
    case isTrue h => rw [h0] at h; exact absurd h (by simp)
    case isFalse =>
      split
      case isTrue h => rw [h1] at h; exact absurd h (by simp)
      case isFalse => rfl

theorem sort_already (X : List F) (W : List F) (hb : areSorted X = true) :
    Sample.Sort ⟨X, some W, false⟩ = ⟨X, some W, true⟩ := by
  rw [Sample.Sort, if_pos (by simp [hb])]

theorem sort_really (X : List F) (W : List F) (hb : areSorted X = false) :
    Sample.Sort ⟨X, some W, false⟩ =
      ⟨(sortBy teP (X.zip W)).map Prod.fst,
        some ((sortBy teP (X.zip W)).map Prod.snd), true⟩ := by
  rw [Sample.Sort, if_neg (by simp [hb])]

theorem areSorted_drop (xs ws : List F) (hlen : ws.length = xs.length)
    (hfx : ∀ x ∈ xs, F.isFinite x = true) (hA : areSorted xs = true) :
    areSorted (((xs.zip ws).filter (fun a => wNZ a.2)).map Prod.fst) = true := by
  have hnn : ∀ x ∈ xs, F.isNaN x = false := fun x hx => isFinite_not_nan (hfx x hx)
  have hchain := areSorted_chain_le xs hnn hA
  haveI : IsTrans F (fun a b => F.le a b = true) := ⟨fun a b c => F.le_trans⟩
  have hpw := (List.chain'_iff_pairwise).mp hchain
  have hsub : (((xs.zip ws).filter (fun a => wNZ a.2)).map Prod.fst).Sublist xs := by
    have h1 : (((xs.zip ws).filter (fun a => wNZ a.2)).map Prod.fst).Sublist
        ((xs.zip ws).map Prod.fst) := (List.filter_sublist _).map _
    rw [List.map_fst_zip xs ws (le_of_eq hlen.symm)] at h1
    exact h1
  exact chain_le_areSorted ((List.chain'_iff_pairwise).mpr (List.Pairwise.sublist hsub hpw))

theorem chain_teP_of_values {L : List (F × F)}
    (h : List.Chain' (fun a b => F.le a b = true) (L.map Prod.fst)) :
    List.Chain' (fun a b => teP a b = true) L := by
  rw [List.chain'_map] at h
  refine h.imp ?_
  intro a b hab
  simp only [teP, Bool.not_eq_true']
  exact F.le_then_not_lt hab

theorem c3_pctPres (xs ws : List F) (b : Bool) (p : F)
    (hlen : ws.length = xs.length)
    (hfx : ∀ x ∈ xs, F.isFinite x = true)
    (hfw : ∀ w ∈ ws, finNN w = true)
    (hw0 : headNZ ws = true)
    (hp : F.isNaN p = false) :
    Sample.Percentile (dropZeroW ⟨xs, some ws, b⟩) p =
      Sample.Percentile ⟨xs, some ws, b⟩ p := by
  rw [dropZeroW_eq]
  by_cases hxe : xs = []
  · subst hxe
    obtain rfl : ws = [] := by
      cases ws with
      | nil => rfl
      | cons a t => simp at hlen
    simp [Sample.Percentile]
  · obtain ⟨x0, xt, rfl⟩ : ∃ x0 xt, xs = x0 :: xt := by
      cases xs with
      | nil => exact absurd rfl hxe
      | cons a t => exact ⟨a, t, rfl⟩
    obtain ⟨w0, wt, rfl⟩ : ∃ w0 wt, ws = w0 :: wt := by
      cases ws with
      | nil => simp at hlen
      | cons a t => exact ⟨a, t, rfl⟩
    have hw0nz : wNZ w0 = true := by simpa [headNZ] using hw0
    have hflcons : ((x0 :: xt).zip (w0 :: wt)).filter (fun a => wNZ a.2) =
        (x0, w0) :: (xt.zip wt).filter (fun a => wNZ a.2) := by
      rw [List.zip_cons_cons, List.filter_cons_of_pos (by simpa using hw0nz)]
    have hxne' : (((x0 :: xt).zip (w0 :: wt)).filter (fun a => wNZ a.2)).map Prod.fst ≠ [] := by
      rw [hflcons]; simp
    have hB := c3_boundsPres (x0 :: xt) (w0 :: wt) b hlen
    rw [dropZeroW_eq] at hB
    have hfxL : ∀ q ∈ (x0 :: xt).zip (w0 :: wt), F.isFinite q.1 = true :=
      fun q hq => hfx q.1 (List.mem_zip hq).1
    have hfwL : ∀ q ∈ (x0 :: xt).zip (w0 :: wt), finNN q.2 = true :=
      fun q hq => hfw q.2 (List.mem_zip hq).2
    have hfwFL : ∀ q ∈ ((x0 :: xt).zip (w0 :: wt)).filter (fun a => wNZ a.2),
        finNN q.2 = true := fun q hq => hfwL q (List.mem_of_mem_filter hq)
    by_cases hple : F.le p (F.fin 0) = true
    · rw [Sample.Percentile, Sample.Percentile]
      rw [if_neg hxne', if_neg (show (x0 :: xt : List F) ≠ [] from by simp)]
      rw [if_pos hple, if_pos hple, hB]
    · by_cases hpge : F.le (F.fin 1) p = true
      · rw [Sample.Percentile, Sample.Percentile]
        rw [if_neg hxne', if_neg (show (x0 :: xt : List F) ≠ [] from by simp)]
        rw [if_neg (show ¬(F.le p (F.fin 0) = true) from by simp [hple]),
          if_neg (show ¬(F.le p (F.fin 0) = true) from by simp [hple])]
        rw [if_pos hpge, if_pos hpge, hB]
      · have hple' : F.le p (F.fin 0) = false := by simpa using hple
        have hpge' : F.le (F.fin 1) p = false := by simpa using hpge
        obtain ⟨pq, rfl, hpq0, hpq1⟩ := p_strict hp hple' hpge'
        rw [percentile_strict _ _ _ _ hxne' hple' hpge',
          percentile_strict _ _ _ _ (by simp) hple' hpge']
        rw [copy_id, copy_id]
        -- total weight and target facts
        obtain ⟨w0q, hw0q, hw0q0⟩ := finNN_cases (hfw w0 (by simp))
        have hw0qpos : 0 < w0q := by
          rcases lt_or_eq_of_le hw0q0 with h | h
          · exact h
          · exfalso
            rw [hw0q, ← h] at hw0nz
            simp [wNZ, F.beq] at hw0nz
        have hSpos : 0 < sumWQ ((x0 :: xt).zip (w0 :: wt)) := by
          have hrest := sumWQ_nonneg (xt.zip wt) (fun q hq => hfwL q (by simp [hq]))
          rw [List.zip_cons_cons, sumWQ_cons]
          have hq2 : F.toQ (x0, w0).2 = w0q := by rw [hw0q]; rfl
          rw [hq2]
          linarith
        have hT0 : 0 ≤ sumWQ ((x0 :: xt).zip (w0 :: wt)) * pq :=
          mul_nonneg (le_of_lt hSpos) (le_of_lt hpq0)
        have hTlt : sumWQ ((x0 :: xt).zip (w0 :: wt)) * pq <
            sumWQ ((x0 :: xt).zip (w0 :: wt)) :=
          mul_lt_of_lt_one_right hSpos hpq1
        have hscan := pctScan_filter ((x0 :: xt).zip (w0 :: wt)) _ hfwL hT0 hTlt
        obtain ⟨v, hv⟩ := Option.isSome_iff_exists.mp hscan.2
        have hvFL : pctScan (((x0 :: xt).zip (w0 :: wt)).filter (fun a => wNZ a.2))
            (F.fin (sumWQ ((x0 :: xt).zip (w0 :: wt)) * pq)) = some v := by
          rw [← hscan.1]; exact hv
        have hTorig : F.mul (Stats.Sum (w0 :: wt)) (F.fin pq) =
            F.fin (sumWQ ((x0 :: xt).zip (w0 :: wt)) * pq) := by
          rw [Sum_fin _ hfw, ← sumWQ_zip (x0 :: xt) (w0 :: wt) hlen]
          rfl
        have hTdrop : F.mul (Stats.Sum ((((x0 :: xt).zip (w0 :: wt)).filter
            (fun a => wNZ a.2)).map Prod.snd)) (F.fin pq) =
            F.fin (sumWQ ((x0 :: xt).zip (w0 :: wt)) * pq) := by
          rw [Sum_snd _ hfwFL, sumWQ_filter _ hfwL]
          rfl
        have hzipFL : ((((x0 :: xt).zip (w0 :: wt)).filter (fun a => wNZ a.2)).map
            Prod.fst).zip ((((x0 :: xt).zip (w0 :: wt)).filter (fun a => wNZ a.2)).map
            Prod.snd) = ((x0 :: xt).zip (w0 :: wt)).filter (fun a => wNZ a.2) :=
          (List.zip_of_prod rfl rfl).symm
        have hCORE : percentileFrom
            ⟨(((x0 :: xt).zip (w0 :: wt)).filter (fun a => wNZ a.2)).map Prod.fst,
              some ((((x0 :: xt).zip (w0 :: wt)).filter (fun a => wNZ a.2)).map Prod.snd),
              true⟩ (F.fin pq) =
            percentileFrom ⟨x0 :: xt, some (w0 :: wt), true⟩ (F.fin pq) := by
          refine pctFromW_eq _ _ _ _ _ _ _ _ v hTdrop hTorig ?_ ?_
          · rw [hzipFL]; exact hvFL
          · exact hv
        cases b with
        | true =>
            rw [if_pos (show (true : Bool) = true from rfl),
              if_pos (show (true : Bool) = true from rfl)]
            exact hCORE
        | false =>
            rw [if_neg (show ¬((false : Bool) = true) from by simp),
              if_neg (show ¬((false : Bool) = true) from by simp)]
            by_cases hA : areSorted (x0 :: xt) = true
            · rw [sort_already (x0 :: xt) (w0 :: wt) hA]
              rw [sort_already ((((x0 :: xt).zip (w0 :: wt)).filter
                  (fun a => wNZ a.2)).map Prod.fst)
                ((((x0 :: xt).zip (w0 :: wt)).filter (fun a => wNZ a.2)).map Prod.snd)
                (areSorted_drop (x0 :: xt) (w0 :: wt) hlen hfx hA)]
              exact hCORE
            · have htr : ∀ (a q' r : F × F), a ∈ (x0 :: xt).zip (w0 :: wt) →
                  q' ∈ (x0 :: xt).zip (w0 :: wt) → r ∈ (x0 :: xt).zip (w0 :: wt) →
                  teP a q' = true → teP q' r = true → teP a r = true := by
                intro a q' r _ hq _ h1 h2
                exact teP_trans_mid (isFinite_not_nan (hfxL q' hq)) h1 h2
              have hcomm := sortBy_filter teP (fun a => wNZ a.2) teP_total
                ((x0 :: xt).zip (w0 :: wt)) htr
              have hpermSP := sortBy_perm teP ((x0 :: xt).zip (w0 :: wt))
              have hfwSP : ∀ q ∈ sortBy teP ((x0 :: xt).zip (w0 :: wt)),
                  finNN q.2 = true := fun q hq => hfwL q (hpermSP.mem_iff.mp hq)
              have hSSP : sumWQ (sortBy teP ((x0 :: xt).zip (w0 :: wt))) =
                  sumWQ ((x0 :: xt).zip (w0 :: wt)) := sumWQ_perm hpermSP
              have hscanSP := pctScan_filter (sortBy teP ((x0 :: xt).zip (w0 :: wt)))
                (sumWQ ((x0 :: xt).zip (w0 :: wt)) * pq) hfwSP hT0 (by rw [hSSP]; exact hTlt)
              obtain ⟨u, hu⟩ := Option.isSome_iff_exists.mp hscanSP.2
              have hTSP : F.mul (Stats.Sum ((sortBy teP ((x0 :: xt).zip (w0 :: wt))).map
                  Prod.snd)) (F.fin pq) =
                  F.fin (sumWQ ((x0 :: xt).zip (w0 :: wt)) * pq) := by
                rw [Sum_snd _ hfwSP, hSSP]
                rfl
              have hzipSP : ((sortBy teP ((x0 :: xt).zip (w0 :: wt))).map Prod.fst).zip
                  ((sortBy teP ((x0 :: xt).zip (w0 :: wt))).map Prod.snd) =
                  sortBy teP ((x0 :: xt).zip (w0 :: wt)) := (List.zip_of_prod rfl rfl).symm
              have hAf : areSorted (x0 :: xt) = false := by simpa using hA
              rw [sort_really (x0 :: xt) (w0 :: wt) hAf]
              by_cases hA' : areSorted ((((x0 :: xt).zip (w0 :: wt)).filter
                  (fun a => wNZ a.2)).map Prod.fst) = true
              · -- dropped sample is already ascending: its pairs are exactly the
                -- filtered pairs, and the filtered pairs are already teP-sorted
                have hFLsorted : sortBy teP (((x0 :: xt).zip (w0 :: wt)).filter
                    (fun a => wNZ a.2)) = ((x0 :: xt).zip (w0 :: wt)).filter
                    (fun a => wNZ a.2) := by
                  refine sortBy_eq_self teP _ (chain_teP_of_values ?_)
                  refine areSorted_chain_le _ ?_ hA'
                  intro x hx
                  obtain ⟨q, hq, hq2⟩ := List.mem_map.mp hx
                  exact hq2 ▸ isFinite_not_nan (hfxL q (List.mem_of_mem_filter hq))
                rw [sort_already ((((x0 :: xt).zip (w0 :: wt)).filter
                    (fun a => wNZ a.2)).map Prod.fst)
                  ((((x0 :: xt).zip (w0 :: wt)).filter (fun a => wNZ a.2)).map Prod.snd)
                  hA']
                have huFL : pctScan (((x0 :: xt).zip (w0 :: wt)).filter
                    (fun a => wNZ a.2))
                    (F.fin (sumWQ ((x0 :: xt).zip (w0 :: wt)) * pq)) = some u := by
                  rw [← hFLsorted, ← hcomm, ← hscanSP.1]
                  exact hu
                refine pctFromW_eq _ _ _ _ _ _ _ _ u hTdrop hTSP ?_ ?_
                · rw [hzipFL]; exact huFL
                · rw [hzipSP]; exact hu
              · have hAf' : areSorted ((((x0 :: xt).zip (w0 :: wt)).filter
                    (fun a => wNZ a.2)).map Prod.fst) = false := by simpa using hA'
                rw [sort_really ((((x0 :: xt).zip (w0 :: wt)).filter
                    (fun a => wNZ a.2)).map Prod.fst)
                  ((((x0 :: xt).zip (w0 :: wt)).filter (fun a => wNZ a.2)).map Prod.snd)
                  hAf']
                rw [hzipFL]
                have hTdrop' : F.mul (Stats.Sum ((sortBy teP ((((x0 :: xt).zip
                    (w0 :: wt)).filter (fun a => wNZ a.2)))).map Prod.snd)) (F.fin pq) =
                    F.fin (sumWQ ((x0 :: xt).zip (w0 :: wt)) * pq) := by
                  have hpermFL := sortBy_perm teP (((x0 :: xt).zip (w0 :: wt)).filter
                    (fun a => wNZ a.2))
                  rw [Sum_snd _ (fun q hq => hfwFL q (hpermFL.mem_iff.mp hq))]
                  rw [sumWQ_perm hpermFL, sumWQ_filter _ hfwL]
                  rfl
                have hzipFL' : ((sortBy teP ((((x0 :: xt).zip (w0 :: wt)).filter
                    (fun a => wNZ a.2)))).map Prod.fst).zip
                    ((sortBy teP ((((x0 :: xt).zip (w0 :: wt)).filter
                    (fun a => wNZ a.2)))).map Prod.snd) =
                    sortBy teP ((((x0 :: xt).zip (w0 :: wt)).filter
                    (fun a => wNZ a.2))) := (List.zip_of_prod rfl rfl).symm
                have huFL' : pctScan (sortBy teP ((((x0 :: xt).zip (w0 :: wt)).filter
                    (fun a => wNZ a.2))))
                    (F.fin (sumWQ ((x0 :: xt).zip (w0 :: wt)) * pq)) = some u := by
                  rw [← hcomm, ← hscanSP.1]
                  exact hu
                refine pctFromW_eq _ _ _ _ _ _ _ _ u hTdrop' hTSP ?_ ?_
                · rw [hzipFL']; exact huFL'
                · rw [hzipSP]; exact hu

/-- Claim C3 (counterexample): on a sample whose weights are all zero,
removing the zero-weight entries changes Percentile: the original sample
returns its last value 2 (the weighted scan falls through), while the
emptied sample returns NaN. -/
theorem c3_counterexample :
    Sample.Percentile ⟨[F.fin 1, F.fin 2], some [F.fin 0, F.fin 0], true⟩
        (F.fin (1/2)) = some (F.fin 2) ∧
    Sample.Percentile (dropZeroW ⟨[F.fin 1, F.fin 2], some [F.fin 0, F.fin 0], true⟩)
        (F.fin (1/2)) = some F.nan ∧
    (some (F.fin 2) : Option F) ≠ some F.nan := by
  refine ⟨?_, ?_, by simp⟩
  · norm_num [Sample.Percentile, percentileFrom, pctScan, Sample.Weight, Stats.Sum,
      F.le, F.lt, F.beq, F.add, F.sub, F.neg, F.mul]
    simp
  · norm_num [dropZeroW, wNZ, F.beq, Sample.Percentile]

/-- Claim C3 (amended): for every weighted sample with finite values,
finite non-negative weights of matching length, a non-zero first weight,
and every non-NaN pctile, removing all zero-weight entries changes none of
Bounds, Sum, Mean and Percentile(p). -/
theorem c3_drop_zero_preserves (xs ws : List F) (b : Bool) (p : F)
    (hlen : ws.length = xs.length)
    (hfx : ∀ x ∈ xs, F.isFinite x = true)
    (hfw : ∀ w ∈ ws, finNN w = true)
    (hw0 : headNZ ws = true)
    (hp : F.isNaN p = false) :
    Sample.Bounds (dropZeroW ⟨xs, some ws, b⟩) = Sample.Bounds ⟨xs, some ws, b⟩ ∧
    Sample.Sum (dropZeroW ⟨xs, some ws, b⟩) = Sample.Sum ⟨xs, some ws, b⟩ ∧
    Sample.Mean (dropZeroW ⟨xs, some ws, b⟩) = Sample.Mean ⟨xs, some ws, b⟩ ∧
    Sample.Percentile (dropZeroW ⟨xs, some ws, b⟩) p =
      Sample.Percentile ⟨xs, some ws, b⟩ p :=
  ⟨c3_boundsPres xs ws b hlen, c3_sumPres xs ws b hfx,
    c3_meanPres xs ws b hlen hfx hfw hw0,
    c3_pctPres xs ws b p hlen hfx hfw hw0 hp⟩

/-- Witness for C3's amended theorem at a concrete unsorted weighted
sample. -/
theorem c3_witness :
    (([F.fin 1, F.fin 0] : List F).length = [F.fin 2, F.fin 1].length ∧
      (∀ x ∈ ([F.fin 2, F.fin 1] : List F), F.isFinite x = true) ∧
      (∀ w ∈ ([F.fin 1, F.fin 0] : List F), finNN w = true) ∧
      headNZ [F.fin 1, F.fin 0] = true ∧ F.isNaN (F.fin (1/2)) = false) ∧
    Sample.Percentile (dropZeroW ⟨[F.fin 2, F.fin 1], some [F.fin 1, F.fin 0], false⟩)
        (F.fin (1/2)) =
      Sample.Percentile ⟨[F.fin 2, F.fin 1], some [F.fin 1, F.fin 0], false⟩
        (F.fin (1/2)) :=
  ⟨⟨by simp, by decide, by decide, by decide, by decide⟩,
    (c3_drop_zero_preserves [F.fin 2, F.fin 1] [F.fin 1, F.fin 0] false (F.fin (1/2))
      (by simp) (by decide) (by decide) (by decide) (by decide)).2.2.2⟩

end Stats
